import Mathlib

/-!
Verification of the bertalign-api TEI alignment-projection engine
(`app/services/tei_service.py`), shallowly embedded over `List Char` strings
and a functional XML-tree model of `xml.etree.ElementTree`.
-/
/-- Text is modelled as a list of characters. -/
abbrev Str := List Char

/-- Convert a Lean string literal to the character-list representation. -/
def lit (s : String) : Str := s.data

/-- Python's `\s` / `str.strip` whitespace set, restricted to ASCII
(the documents in scope are ASCII/Latin; Unicode spaces behave identically
for every property proved here). -/
def isWs (c : Char) : Bool :=
  c = ' ' || c = '\t' || c = '\n' || c = '\r' || c = '\x0b' || c = '\x0c'

/-- Characters matched by the regex class `[\r\n]`. -/
def isNl (c : Char) : Bool := c = '\r' || c = '\n'

/-- `re.sub(p+, ' ', s)`: replace every maximal run of characters satisfying
`p` by a single space.  `prev` records whether the previous character was in
the run. -/
def collapseAux (p : Char → Bool) : Bool → Str → Str
  | _, [] => []
  | true, c :: cs =>
      if p c then collapseAux p true cs else c :: collapseAux p false cs
  | false, c :: cs =>
      if p c then ' ' :: collapseAux p true cs else c :: collapseAux p false cs

def collapse (p : Char → Bool) (s : Str) : Str := collapseAux p false s

/-- `str.lstrip()` on the whitespace set. -/
def stripStart (s : Str) : Str := s.dropWhile isWs

/-- `str.rstrip()` on the whitespace set. -/
def stripEnd : Str → Str
  | [] => []
  | c :: cs =>
      match stripEnd cs with
      | [] => if isWs c then [] else [c]
      | r => c :: r

/-- `str.strip()`. -/
def stripWs (s : Str) : Str := stripEnd (stripStart s)

/-- `TEIService._clean_text`: remove line breaks, collapse whitespace runs to
single spaces, strip.  The `if not text` guard of the source is the empty
case. -/
def cleanText (s : Str) : Str :=
  if s = [] then s else stripWs (collapse isWs (collapse isNl s))

/-! ### Properties of the Text Cleaner (claim C9) -/
/-- Every whitespace character of the list is a plain space. -/
def allWsSpace (l : Str) : Bool := l.all (fun c => !isWs c || c = ' ')

/-- No two adjacent characters are both whitespace. -/
def noAdjWs : Str → Bool
  | a :: b :: r => (!(isWs a && isWs b)) && noAdjWs (b :: r)
  | _ => true

/-- The head (if any) is not whitespace. -/
def headOk : Str → Bool
  | [] => true
  | c :: _ => !isWs c

/-- The last character (if any) is not whitespace. -/
def lastOk : Str → Bool
  | [] => true
  | [c] => !isWs c
  | _ :: c :: r => lastOk (c :: r)

/-! ### String search primitives (Python `in`, `str.find`, `' '.join`) -/
/-- Does `needle` occur at the front of `hay`? -/
def leadsWith : Str → Str → Bool
  | [], _ => true
  | _ :: _, [] => false
  | a :: as, b :: bs => a = b && leadsWith as bs

/-- `hay.find(needle)`: index of the first occurrence, if any. -/
def findIdx (needle : Str) : Str → Option Nat
  | [] => if leadsWith needle [] then some 0 else none
  | c :: t =>
      if leadsWith needle (c :: t) then some 0 else (findIdx needle t).map (· + 1)

/-- Python `needle in hay` for strings. -/
def containsStr (needle hay : Str) : Bool := (findIdx needle hay).isSome

/-- `' '.join(l)`. -/
def joinSp : List Str → Str
  | [] => []
  | [x] => x
  | x :: y :: r => x ++ ' ' :: joinSp (y :: r)

/-- `sep.join(l)` for an arbitrary separator. -/
def joinWith (sep : Str) : List Str → Str
  | [] => []
  | [x] => x
  | x :: y :: r => x ++ sep ++ joinWith sep (y :: r)

/-- `text.split()`: the list of maximal non-whitespace runs, scanning from the
right so the recursion is structural. -/
def splitWs : Str → List Str
  | [] => []
  | c :: t =>
      let r := splitWs t
      if isWs c then r
      else
        match t, r with
        | [], _ => [[c]]
        | d :: _, w :: ws => if isWs d then [c] :: (w :: ws) else (c :: w) :: ws
        | _ :: _, [] => [[c]]

/-- Delete every whitespace character (used to state content preservation). -/
def removeWs (s : Str) : Str := s.filter (fun c => !isWs c)

/-! ### The XML tree model (`xml.etree.ElementTree.Element`) -/
/-- An XML element: tag (namespace-stripped local name), attributes, leading
text, children, and trailing text (`tail`).  Attribute keys are plain names;
`xml:id` stands for the namespaced id attribute. -/
inductive XTree where
  | node (tag : String) (attrs : List (String × Str)) (text : Str)
      (children : List XTree) (tail : Str)
deriving Repr

def XTree.tag : XTree → String
  | .node t _ _ _ _ => t

def XTree.attrs : XTree → List (String × Str)
  | .node _ a _ _ _ => a

def XTree.text : XTree → Str
  | .node _ _ t _ _ => t

def XTree.children : XTree → List XTree
  | .node _ _ _ c _ => c

def XTree.tail : XTree → Str
  | .node _ _ _ _ t => t

mutual
/-- `elem.iter()`: the element followed by its descendants in document order. -/
def preorder : XTree → List XTree
  | .node t a x c tl => .node t a x c tl :: preorderList c

def preorderList : List XTree → List XTree
  | [] => []
  | e :: r => preorder e ++ preorderList r
end

mutual
/-- Raw text content of an element (its text, then recursively each child's
content followed by the child's tail); the element's own tail excluded. -/
def rawContent : XTree → Str
  | .node _ _ x c _ => x ++ rawKids c

def rawKids : List XTree → Str
  | [] => []
  | e :: r => rawContent e ++ e.tail ++ rawKids r
end

mutual
/-- `TEIService._get_element_text`: flatten all descendant text in reading
order, joining the pieces with single spaces, stripping each piece, and
cleaning the result. -/
def getElementText : XTree → Str
  | .node _ _ x c _ =>
      cleanText (stripWs (joinSp
        ((if x ≠ [] then [stripWs x] else []) ++ childTexts c)))

def childTexts : List XTree → List Str
  | [] => []
  | e :: r =>
      (let ct := getElementText e
       (if ct ≠ [] then [ct] else []) ++
         (if e.tail ≠ [] then [stripWs e.tail] else [])) ++ childTexts r
end

mutual
/-- First strict descendant satisfying `p`, in document order
(ElementTree `find('.//...')`). -/
def findDesc (p : XTree → Bool) : XTree → Option XTree
  | .node _ _ _ c _ => findDescList p c

def findDescList (p : XTree → Bool) : List XTree → Option XTree
  | [] => none
  | e :: r =>
      if p e then some e
      else match findDesc p e with
        | some d => some d
        | none => findDescList p r
end

mutual
/-- Rewrite the first (document order) strict descendant satisfying `p` with
`f`; the Bool reports whether a match was found. -/
def mapFirstDesc (p : XTree → Bool) (f : XTree → XTree) : XTree → (XTree × Bool)
  | .node t a x c tl =>
      let (c', found) := mapFirstDescList p f c
      (.node t a x c' tl, found)

def mapFirstDescList (p : XTree → Bool) (f : XTree → XTree) :
    List XTree → (List XTree × Bool)
  | [] => ([], false)
  | e :: r =>
      if p e then (f e :: r, true)
      else
        let (e', found) := mapFirstDesc p f e
        if found then (e' :: r, true)
        else
          let (r', found') := mapFirstDescList p f r
          (e' :: r', found')
end

mutual
/-- Number of elements with the given tag in the subtree (the element itself
included). -/
def countTag (t : String) : XTree → Nat
  | .node tg _ _ c _ => (if tg = t then 1 else 0) + countTagList t c

def countTagList (t : String) : List XTree → Nat
  | [] => 0
  | e :: r => countTag t e + countTagList t r
end

mutual
/-- All values of the `xml:id` attribute in the subtree, document order. -/
def collectXmlIds : XTree → List Str
  | .node _ a _ c _ =>
      (match a.lookup "xml:id" with
       | some v => [v]
       | none => []) ++ collectXmlIdsList c

def collectXmlIdsList : List XTree → List Str
  | [] => []
  | e :: r => collectXmlIds e ++ collectXmlIdsList r
end

/-! ### TEI parsing and the alignment map (`TEIService`) -/
/-- Association-list get with Python-dict key semantics. -/
def assocGet (k : Str) : List (Str × α) → Option α
  | [] => none
  | (k', v) :: r => if k' = k then some v else assocGet k r

/-- Python-dict assignment: overwrite in place if the key exists (keeping its
original position), else append. -/
def assocUpdate (l : List (Str × α)) (k : Str) (v : α) : List (Str × α) :=
  match l with
  | [] => [(k, v)]
  | (k', v') :: r => if k' = k then (k', v) :: r else (k', v') :: assocUpdate r k v

/-- `TEIElement` of the source (dataclass): tag with namespace stripped,
cleaned text, attributes.  The informational `element_id`/`parent_path`
fields are never read by the alignment or projection code and are omitted. -/
structure TEIElement where
  tag : String
  text : Str
  attrib : List (String × Str)
deriving Repr, DecidableEq

/-- Tags treated as alignable text units (`'}p'`/`'}head'` suffix test of the
source, on namespace-stripped local names). -/
def isTextTag (t : String) : Bool := t = "p" || t = "head"

/-- `TEIService._extract_text_elements`: every `p`/`head` element of the
`body` subtree, in document order, whose flattened cleaned text is
non-empty. -/
def extractTextElements (root : XTree) : List TEIElement :=
  match findDesc (fun e => e.tag = "body") root with
  | none => []
  | some body =>
      (preorder body).filterMap (fun e =>
        if isTextTag e.tag then
          let t := getElementText e
          if t ≠ [] ∧ stripWs t ≠ [] then some ⟨e.tag, stripWs t, e.attrs⟩
          else none
        else none)

/-- `TEIService._extract_language`: the `ident` attribute of the first
`profileDesc/langUsage/language` element, defaulting to `"unknown"`. -/
def extractLanguage (root : XTree) : Str :=
  match findDesc (fun e => e.tag = "profileDesc") root with
  | none => lit "unknown"
  | some pd =>
      match pd.children.findSome? (fun lu =>
          if lu.tag = "langUsage" then
            lu.children.find? (fun l => l.tag = "language")
          else none) with
      | some le =>
          match le.attrs.lookup "ident" with
          | some v => v
          | none => lit "unknown"
      | none => lit "unknown"

/-- `TEIService._extract_title`: first `titleStmt/title` element's own text,
stripped; `"Untitled"` when absent or empty. -/
def extractTitle (root : XTree) : Str :=
  match findDesc (fun e => e.tag = "titleStmt") root with
  | none => lit "Untitled"
  | some ts =>
      match ts.children.find? (fun t => t.tag = "title") with
      | some te => if te.text ≠ [] then stripWs te.text else lit "Untitled"
      | none => lit "Untitled"

/-- Parsed `TEIDocument`.  The `header` field of the source dataclass is
never read downstream (the projector re-finds the header in its own copy)
and is omitted. -/
structure TEIDoc where
  root : XTree
  textElements : List TEIElement
  language : Str
  title : Str
deriving Repr

/-- Error taxonomy surfaced by the service. -/
inductive TeiError where
  | invalidXML
  | projectionFailure
deriving Repr, DecidableEq

/-- `TEIService.parse_tei_file`.  The outcome of the external
`ET.fromstring` well-formedness check is the `Option XTree` input: `none`
models a malformed document (`ET.ParseError`), which the source converts to
the `Invalid TEI XML` `ValueError`. -/
def parseTeiFile (xml : Option XTree) : Except TeiError TEIDoc :=
  match xml with
  | none => .error .invalidXML
  | some root =>
      .ok ⟨root, extractTextElements root, extractLanguage root, extractTitle root⟩

/-- One alignment group from the external Aligner (`AlignmentPair` model).
The score and index fields are never read by the TEI code paths and are
omitted. -/
structure AlignmentPair where
  sourceSentences : List Str
  targetSentences : List Str
deriving Repr, DecidableEq

/-- The scan of `_find_best_matching_element`: walk the lookup in insertion
order keeping the entry with strictly greatest coverage
`len(text)/len(element_text)`.  The running best ratio is kept as an exact
fraction `bn/bd`; Python compares the same ratios as floats, which agrees
with the exact comparison for all realistic string lengths. -/
def scanBest (text : Str) :
    List (Str × TEIElement) → Option TEIElement × Nat × Nat →
      Option TEIElement × Nat × Nat
  | [], best => best
  | (k, e) :: rest, (bm, bn, bd) =>
      if containsStr text k = true ∧ bn * k.length < text.length * bd then
        scanBest text rest (some e, text.length, k.length)
      else
        scanBest text rest (bm, bn, bd)

/-- `TEIService._find_best_matching_element`: exact lookup first, then the
best-coverage substring scan; `none` when nothing matches. -/
def findBestMatchingElement (text : Str)
    (lookup : List (Str × TEIElement)) : Option TEIElement :=
  match assocGet text lookup with
  | some e => some e
  | none => (scanBest text lookup (none, 0, 1)).1

/-- `TEIService._determine_alignment_type`.  Python computes
`len(aligned_text) < len(element_text) * 0.9` in double precision;
for every element text shorter than ~4·10^14 characters that comparison
coincides with the exact `10·la < 9·le` used here (at the boundary
`le = 10m`, the rounding error `m·2^-52` of `10m · fl(0.9)` is below half an
ulp of `9m`, so the product rounds to exactly `9m`). -/
def determineAlignmentType (alignedText : Str) (element : TEIElement) : String :=
  if element.text = [] then "paragraph"
  else
    let elementText := stripWs element.text
    if alignedText = elementText then "paragraph"
    else if containsStr alignedText elementText = true ∧
        10 * alignedText.length < 9 * elementText.length then "sentence"
    else "paragraph"

/-- The `{elem.text.strip(): elem for elem in ...}` comprehension: a dict in
insertion order, later duplicate keys overwriting the stored element while
keeping the first key position. -/
def buildTextLookup (elems : List TEIElement) : List (Str × TEIElement) :=
  elems.foldl
    (fun acc e =>
      if e.text ≠ [] ∧ stripWs e.text ≠ [] then
        assocUpdate acc (stripWs e.text) e
      else acc) []

/-- One entry of `source_elements`/`target_elements`. -/
structure MapEntry where
  uuid : Nat
  element : TEIElement
  alignmentType : String
  alignedSentences : List Str
deriving Repr, DecidableEq

/-- One entry of the `links` list. -/
structure LinkData where
  sourceUuid : Nat
  targetUuid : Nat
  sourceText : Str
  targetText : Str
deriving Repr, DecidableEq

/-- The enhanced alignment map (`links`, `source_elements`,
`target_elements`). -/
structure EnhancedAlignmentMap where
  links : List LinkData
  sourceElements : List (Str × MapEntry)
  targetElements : List (Str × MapEntry)
deriving Repr

/-- Second pass of `_create_enhanced_alignment_map`: register each individual
sentence of one side under the group's (already generated) identifier. -/
def registerSentences (lookup : List (Str × TEIElement)) (uuid : Nat)
    (sentences : List Str) (m : List (Str × MapEntry)) : List (Str × MapEntry) :=
  sentences.foldl
    (fun m s =>
      let s' := stripWs s
      if s' ≠ [] ∧ assocGet s' m = none then
        match findBestMatchingElement s' lookup with
        | some el =>
            assocUpdate m s' ⟨uuid, el, determineAlignmentType s' el, sentences⟩
        | none => m
      else m) m

/-- Body of the `for alignment in alignments` loop of
`_create_enhanced_alignment_map`.  `uuid.uuid4()` produces a fresh,
collision-free identifier per call; the two calls of one iteration are
modelled by a per-request counter (`c` and `c+1`), the spec-sanctioned
collision-free generator. -/
def processAlignment (srcLookup tgtLookup : List (Str × TEIElement))
    (st : EnhancedAlignmentMap × Nat) (a : AlignmentPair) :
    EnhancedAlignmentMap × Nat :=
  let m := st.1
  let c := st.2
  let sourceText := stripWs (joinSp a.sourceSentences)
  let targetText := stripWs (joinSp a.targetSentences)
  let srcElems :=
    match findBestMatchingElement sourceText srcLookup with
    | some el =>
        assocUpdate m.sourceElements sourceText
          ⟨c, el, determineAlignmentType sourceText el, a.sourceSentences⟩
    | none => m.sourceElements
  let tgtElems :=
    match findBestMatchingElement targetText tgtLookup with
    | some el =>
        assocUpdate m.targetElements targetText
          ⟨c + 1, el, determineAlignmentType targetText el, a.targetSentences⟩
    | none => m.targetElements
  let srcElems := registerSentences srcLookup c a.sourceSentences srcElems
  let tgtElems := registerSentences tgtLookup (c + 1) a.targetSentences tgtElems
  (⟨m.links ++ [⟨c, c + 1, sourceText, targetText⟩], srcElems, tgtElems⟩, c + 2)

/-- `TEIService._create_enhanced_alignment_map`. -/
def createEnhancedAlignmentMap (sourceElems targetElems : List TEIElement)
    (alignments : List AlignmentPair) : EnhancedAlignmentMap :=
  (alignments.foldl
    (processAlignment (buildTextLookup sourceElems) (buildTextLookup targetElems))
    (⟨[], [], []⟩, 0)).1

/-! ### The TEI projector (`_create_tei_with_ids`) -/
/-- `TEIService._texts_match`.  `overlap/total > 0.8` is computed by Python
in double precision; the exact `5·overlap > 4·total` used here coincides with
it for all realistic lengths (at `overlap/total = 4/5` both comparisons are
false, since `4/5` rounds to the same double as the literal `0.8`). -/
def textsMatch (t1 t2 : Str) : Bool :=
  let n1 := joinSp (splitWs t1)
  let n2 := joinSp (splitWs t2)
  if n1 = n2 then true
  else if containsStr n1 n2 || containsStr n2 n1 then
    decide (4 * max n1.length n2.length < 5 * min n1.length n2.length)
  else false

/-- Render a model identifier the way `str(uuid.uuid4())` yields a string. -/
def natStr (n : Nat) : Str := Nat.toDigits 10 n

/-- `elem.set(key, value)` on the attribute dict. -/
def attrsSet (a : List (String × Str)) (k : String) (v : Str) :
    List (String × Str) :=
  match a with
  | [] => [(k, v)]
  | (k', v') :: r => if k' = k then (k', v) :: r else (k', v') :: attrsSet r k v

/-- The `sentences_to_segment` list of `_create_seg_tags_for_sentences`:
each match contributes its aligned sentences (stripped) that occur inside
the element's full text, paired with that match's identifier. -/
def segSentences (ms : List MapEntry) (fullText : Str) : List (Str × Nat) :=
  ms.flatMap (fun m =>
    m.alignedSentences.filterMap (fun s =>
      let s' := stripWs s
      if s' ≠ [] ∧ containsStr s' fullText = true then some (s', m.uuid)
      else none))

/-- A generated `<seg xml:id=...>` child. -/
def segNode (s : Str) (u : Nat) : XTree :=
  .node "seg" [("xml:id", natStr u)] s [] []

/-- `prev_elem.tail = (prev_elem.tail or "") + x` on the last child. -/
def addLastTail (ks : List XTree) (x : Str) : List XTree :=
  match ks with
  | [] => []
  | [.node t a te c tl] => [.node t a te c (tl ++ x)]
  | e :: r => e :: addLastTail r x

/-- `last_seg.tail = x` on the last child. -/
def setLastTail (ks : List XTree) (x : Str) : List XTree :=
  match ks with
  | [] => []
  | [.node t a te c _] => [.node t a te c x]
  | e :: r => e :: setLastTail r x

/-- The `for i, sentence_info in enumerate(sentences_to_segment)` loop:
state is the element text built so far, the children built so far, and the
remaining unconsumed text. -/
def segLoop : List (Str × Nat) → Nat → Str → List XTree → Str →
    Str × List XTree × Str
  | [], _, txt, kids, rem => (txt, kids, rem)
  | (s, u) :: rest, i, txt, kids, rem =>
      match findIdx s rem with
      | none => segLoop rest (i + 1) txt kids rem
      | some start =>
          let before := stripWs (rem.take start)
          let st :=
            if 0 < start ∧ before ≠ [] then
              if i = 0 then (txt ++ before ++ [' '], kids)
              else if kids.isEmpty then (txt, kids)
              else (txt, addLastTail kids (before ++ [' ']))
            else (txt, kids)
          segLoop rest (i + 1) st.1 (st.2 ++ [segNode s u])
            (rem.drop (start + s.length))

/-- `TEIService._create_seg_tags_for_sentences`.  `elem.clear()` resets
text, children and attributes and the original tail is restored
afterwards. -/
def createSegTagsForSentences (e : XTree) (ms : List MapEntry)
    (fullText : Str) : XTree :=
  match segSentences ms fullText with
  | [] =>
      match ms with
      | [] => e
      | m :: _ =>
          .node e.tag (attrsSet e.attrs "xml:id" (natStr m.uuid)) e.text
            e.children e.tail
  | s :: rest =>
      let r := segLoop (s :: rest) 0 [] [] fullText
      if stripWs r.2.2 ≠ [] then
        if r.2.1.isEmpty then .node e.tag [] (r.1 ++ stripWs r.2.2) [] e.tail
        else .node e.tag [] r.1 (setLastTail r.2.1 (' ' :: stripWs r.2.2)) e.tail
      else .node e.tag [] r.1 r.2.1 e.tail

mutual
/-- The `for elem in body.iter()` projection loop of `_create_tei_with_ids`:
a matched `p`/`head` whose sentence list is non-empty is rewritten in place
(its old children vanish with `clear()`, so the iterator never visits them);
in the id-only fallback the children survive and are still visited. -/
def transformElem (emap : List (Str × MapEntry)) : XTree → XTree
  | .node t a x c tl =>
      if isTextTag t then
        let et := getElementText (.node t a x c tl)
        if et ≠ [] ∧ stripWs et ≠ [] then
          let cl := stripWs et
          let ms := (emap.filter
            (fun kv => textsMatch cl kv.1 || containsStr kv.1 cl)).map (·.2)
          if ms ≠ [] then
            if segSentences ms cl ≠ [] then
              createSegTagsForSentences (.node t a x c tl) ms cl
            else
              let e' := createSegTagsForSentences (.node t a x c tl) ms cl
              .node e'.tag e'.attrs e'.text (transformList emap c) e'.tail
          else .node t a x (transformList emap c) tl
        else .node t a x (transformList emap c) tl
      else .node t a x (transformList emap c) tl

def transformList (emap : List (Str × MapEntry)) : List XTree → List XTree
  | [] => []
  | e :: r => transformElem emap e :: transformList emap r
end

/-- The dict keys of the enhanced alignment map, tested against element text
by the legacy fallback branch of `_create_tei_with_ids`. -/
def fallbackKeys : List Str :=
  [lit "links", lit "source_elements", lit "target_elements"]

/-- Injective-style pairing used to carry non-string fallback values. -/
def npair (a b : Nat) : Nat := (a + b) * (a + b + 1) / 2 + b

/-- Numeral code of a character list. -/
def encStr (s : Str) : Nat := s.foldl (fun a c => npair a (c.toNat + 1)) 0

/-- Numeral code of a list given codes of its elements. -/
def encList (f : α → Nat) (l : List α) : Nat :=
  l.foldl (fun a y => npair a (f y + 1)) 0

/-- Numeral code of one `links` entry. -/
def encLink (l : LinkData) : Nat :=
  npair (npair l.sourceUuid l.targetUuid)
    (npair (encStr l.sourceText) (encStr l.targetText))

/-- Numeral code of a `TEIElement`. -/
def encElement (e : TEIElement) : Nat :=
  npair (encStr e.tag.data)
    (npair (encStr e.text)
      (encList (fun kv => npair (encStr kv.1.data) (encStr kv.2)) e.attrib))

/-- Numeral code of one side-map entry. -/
def encEntry (kv : Str × MapEntry) : Nat :=
  npair (encStr kv.1)
    (npair kv.2.uuid
      (npair (encElement kv.2.element)
        (npair (encStr kv.2.alignmentType.data)
          (encList encStr kv.2.alignedSentences))))

/-- The raw value `alignment_map[key]` read by the legacy fallback branch
(line 437 of the source): the `links` list or one of the two side maps.
The source stores this non-string object directly as the seg id (serialising
such a tree raises in ET); the model carries it as a numeral code of the
object, so the projected tree keeps its dependence on the stored value —
including on the unselected side's map. -/
def fallbackUuid (amap : EnhancedAlignmentMap) (key : Str) : Nat :=
  if key = lit "links" then encList encLink amap.links
  else if key = lit "source_elements" then encList encEntry amap.sourceElements
  else encList encEntry amap.targetElements

mutual
/-- The legacy-format fallback loop of `_create_tei_with_ids` (runs only when
the selected side map is empty): an element whose text equals one of the
dict's key names is segmented with `alignment_map[key]` — a non-string
object — as id; `fallbackUuid` carries that object's value. -/
def transformFb (amap : EnhancedAlignmentMap) : XTree → XTree
  | .node t a x c tl =>
      if isTextTag t then
        let et := getElementText (.node t a x c tl)
        if et ≠ [] ∧ stripWs et ∈ fallbackKeys then
          createSegTagsForSentences (.node t a x c tl)
            [⟨fallbackUuid amap (stripWs et), ⟨"", [], []⟩, "", [stripWs et]⟩]
            (stripWs et)
        else .node t a x (transformFbList amap c) tl
      else .node t a x (transformFbList amap c) tl

def transformFbList (amap : EnhancedAlignmentMap) : List XTree → List XTree
  | [] => []
  | e :: r => transformFb amap e :: transformFbList amap r
end

/-- A fresh `<language ident=lang>lang</language>` element. -/
def langNode (language : Str) : XTree :=
  .node "language" [("ident", language)] language [] []

/-- Remove the existing `language` children of a `langUsage` element and
append the replacement.  (`findall('.//...')`+`remove` of the source only
succeeds on direct children; a nested match would raise in ET.) -/
def addLangToLangUsage (language : Str) (lu : XTree) : XTree :=
  .node lu.tag lu.attrs lu.text
    (lu.children.filter (fun c => c.tag ≠ "language") ++ [langNode language])
    lu.tail

/-- The header-language rewrite of `_create_tei_with_ids`: update the first
`profileDesc` (creating `langUsage` when missing), or create
`profileDesc/langUsage` under the first `teiHeader`; `none` when even the
header is missing (ET raises there). -/
def rewriteHeaderLang (root : XTree) (language : Str) : Option XTree :=
  let r1 := mapFirstDesc (fun e => e.tag = "profileDesc")
    (fun pd =>
      let r2 := mapFirstDesc (fun e => e.tag = "langUsage")
        (addLangToLangUsage language) pd
      if r2.2 then r2.1
      else .node pd.tag pd.attrs pd.text
        (pd.children ++ [.node "langUsage" [] [] [langNode language] []])
        pd.tail) root
  if r1.2 then some r1.1
  else
    let r3 := mapFirstDesc (fun e => e.tag = "teiHeader")
      (fun th => .node th.tag th.attrs th.text
        (th.children ++
          [.node "profileDesc" [] []
            [.node "langUsage" [] [] [langNode language] []] []])
        th.tail) root
    if r3.2 then some r3.1 else none

/-- The hard-coded language set of line 406 of the source: the side of the
alignment map used for a projected document is chosen by its language
code. -/
def langFam : List Str := [lit "it", lit "de", lit "fr"]

/-- `TEIService._create_tei_with_ids`.  The deep copy via
serialize-and-reparse of the source is value copying here. -/
def createTeiWithIds (doc : TEIDoc) (amap : EnhancedAlignmentMap)
    (language : Str) : Option XTree :=
  match rewriteHeaderLang doc.root language with
  | none => none
  | some t1 =>
      let emap :=
        if language ∈ langFam then amap.sourceElements else amap.targetElements
      let t2 := (mapFirstDesc (fun e => e.tag = "body") (transformElem emap) t1).1
      let t3 :=
        if emap = [] then
          (mapFirstDesc (fun e => e.tag = "body") (transformFb amap) t2).1
        else t2
      some (.node t3.tag t3.attrs t3.text
        (t3.children ++ [.node "facsimile" [] [] [] []]) t3.tail)

/-! ### Corpus assembly and the pipeline (`_generate_aligned_tei`,
`align_tei_documents`) -/
/-- One standoff `<link>`: `target="#srcId #tgtId"`, `type="Linguistic"`. -/
def linkElem (l : LinkData) : XTree :=
  .node "link"
    [("target",
      '#' :: natStr l.sourceUuid ++ ' ' :: '#' :: natStr l.targetUuid),
     ("type", lit "Linguistic")] [] [] []

/-- The fixed corpus-level header built by `_generate_aligned_tei`. -/
def corpusHeader (srcLang tgtLang : Str) : XTree :=
  .node "teiHeader" [] []
    [.node "fileDesc" [] []
      [.node "titleStmt" [] []
        [.node "title" [] (lit "Aligned Parallel Texts") [] []] [],
       .node "publicationStmt" [] []
        [.node "p" [] (lit "Aligned using Bertalign API") [] []] []] [],
     .node "profileDesc" [] []
      [.node "langUsage" [] []
        [.node "language" [("ident", srcLang)]
          (lit "Source language: " ++ srcLang) [] [],
         .node "language" [("ident", tgtLang)]
          (lit "Target language: " ++ tgtLang) [] []] []] []] []

/-- The `standOff` block: one `linkGrp` holding one `link` per entry of the
alignment map's `links` list. -/
def standOffNode (amap : EnhancedAlignmentMap) : XTree :=
  .node "standOff" [] []
    [.node "linkGrp" [("type", lit "translation")] []
      (amap.links.map linkElem) []] []

/-- `TEIService._generate_aligned_tei`: corpus header, standoff linkGrp, then
the two projected documents in source-then-target order.  Serialization to a
string (XML declaration + `tostring`) is not modelled; the claims concern
the tree. -/
def generateAlignedTei (sourceDoc targetDoc : TEIDoc)
    (alignments : List AlignmentPair) (srcLang tgtLang : Str) : Option XTree :=
  let amap := createEnhancedAlignmentMap sourceDoc.textElements
    targetDoc.textElements alignments
  match createTeiWithIds sourceDoc amap srcLang,
      createTeiWithIds targetDoc amap tgtLang with
  | some srcT, some tgtT =>
      some (.node "teiCorpus" [("version", lit "3.3.0")] []
        [corpusHeader srcLang tgtLang, standOffNode amap, srcT, tgtT] [])
  | _, _ => none

/-- The result dict of `align_tei_documents`. -/
structure TeiAlignResult where
  alignedRoot : XTree
  sourceLanguage : Str
  targetLanguage : Str
  alignmentCount : Nat
deriving Repr

/-- A pipeline run together with the fact of the external Aligner having
been invoked. -/
structure PipelineOutcome where
  result : Except TeiError TeiAlignResult
  alignerInvoked : Bool

/-- `source_language or (doc.language if doc.language != 'unknown' else
'en')`: Python `or` also rejects an empty provided string. -/
def pyOrLang (provided : Option Str) (docLang : Str) : Str :=
  let fb := if docLang = lit "unknown" then lit "en" else docLang
  match provided with
  | some l => if l = [] then fb else l
  | none => fb

/-- The `[elem.text.strip() for elem in doc.text_elements if ...]`
comprehensions of `align_tei_documents`. -/
def unitTexts (doc : TEIDoc) : List Str :=
  doc.textElements.filterMap (fun el =>
    if el.text ≠ [] ∧ stripWs el.text ≠ [] then some (stripWs el.text)
    else none)

/-- `TEIService.align_tei_documents`.  The external
`BertalignService.align_texts` collaborator is the opaque `align` argument,
applied to the double-newline joins exactly as the source builds its
`AlignmentRequest` (languages and fixed parameters do not affect any claim
and are left inside the opaque function). -/
def alignTeiDocuments (sourceXml targetXml : Option XTree)
    (sourceLanguage targetLanguage : Option Str)
    (align : Str → Str → List AlignmentPair) : PipelineOutcome :=
  match parseTeiFile sourceXml with
  | .error e => ⟨.error e, false⟩
  | .ok sourceDoc =>
      match parseTeiFile targetXml with
      | .error e => ⟨.error e, false⟩
      | .ok targetDoc =>
          let srcLang := pyOrLang sourceLanguage sourceDoc.language
          let tgtLang := pyOrLang targetLanguage targetDoc.language
          let alignments := align (joinWith (lit "\n\n") (unitTexts sourceDoc))
            (joinWith (lit "\n\n") (unitTexts targetDoc))
          match generateAlignedTei sourceDoc targetDoc alignments
              srcLang tgtLang with
          | some t => ⟨.ok ⟨t, srcLang, tgtLang, alignments.length⟩, true⟩
          | none => ⟨.error .projectionFailure, true⟩

/-! ### Derived descriptions and fixtures used by the claim statements -/
/-- The link produced for one alignment group when the identifier counter
stands at `c`. -/
def linkOf (c : Nat) (a : AlignmentPair) : LinkData :=
  ⟨c, c + 1, stripWs (joinSp a.sourceSentences), stripWs (joinSp a.targetSentences)⟩

/-- The links of all groups, counters starting at `c`. -/
def linksFrom (c : Nat) : List AlignmentPair → List LinkData
  | [] => []
  | a :: r => linkOf c a :: linksFrom (c + 2) r

/-- All identifiers referenced by a list of links. -/
def linkUuids (ls : List LinkData) : List Nat :=
  ls.flatMap (fun l => [l.sourceUuid, l.targetUuid])

/-- Count of structural elements (`div`, `pb`, `head`) among strict
descendants. -/
def innerStructCount (c : List XTree) : Nat :=
  countTagList "div" c + countTagList "pb" c + countTagList "head" c

mutual
/-- No `div`/`pb`/`head` element is nested inside any `p`, `head` or
`language` element: such nested elements are the ones the projector
deletes. -/
def okTree : XTree → Bool
  | .node t _ _ c _ =>
      (if t = "p" || t = "head" || t = "language" then
        innerStructCount c == 0
       else true) && okTreeList c

def okTreeList : List XTree → Bool
  | [] => true
  | e :: r => okTree e && okTreeList r
end

/-- A minimal TEI document whose body holds the given elements. -/
def mkTei (ps : List XTree) : XTree :=
  .node "TEI" [] []
    [.node "teiHeader" [] []
      [.node "fileDesc" [] []
        [.node "titleStmt" [] [] [.node "title" [] (lit "T") [] []] []] []] [],
     .node "text" [] [] [.node "body" [] [] ps []] []] []

/-- A paragraph with plain text. -/
def pNode (s : String) : XTree := .node "p" [] (lit s) [] []

/-- Parse an (always well-formed) fixture tree into a `TEIDoc`. -/
def mkDoc (t : XTree) : TEIDoc :=
  ⟨t, extractTextElements t, extractLanguage t, extractTitle t⟩

/-- Fixture: source document with the single paragraph `A. B.`. -/
def srcDocAB : TEIDoc := mkDoc (mkTei [pNode "A. B."])

/-- Fixture: target document with the single paragraph `X.`. -/
def tgtDocX : TEIDoc := mkDoc (mkTei [pNode "X."])

/-- Fixture: one 2-to-1 alignment group covering both paragraphs fully. -/
def alAB : List AlignmentPair := [⟨[lit "A.", lit "B."], [lit "X."]⟩]

/-- Fixture: source document with the single paragraph `A.`. -/
def srcDocA : TEIDoc := mkDoc (mkTei [pNode "A."])

/-- Fixture: one 1-to-1 group `A.` against `X.`. -/
def alAX : List AlignmentPair := [⟨[lit "A."], [lit "X."]⟩]

/-- Fixture: the alignment map of the `A.`/`X.` pair. -/
def amapAX : EnhancedAlignmentMap :=
  createEnhancedAlignmentMap srcDocA.textElements tgtDocX.textElements alAX

/-- Fixture: one group whose sentences occur in neither document. -/
def alZZ : List AlignmentPair := [⟨[lit "ZZZ"], [lit "QQQ"]⟩]

/-- Fixture: a paragraph whose text is `AB C` (one word `AB`). -/
def pABC : XTree := pNode "AB C"

/-- Fixture: a map entry whose aligned sentence `B C` starts mid-word. -/
def entryBC : MapEntry := ⟨0, ⟨"p", lit "AB C", []⟩, "sentence", [lit "B C"]⟩

/-- Fixture: a paragraph containing a page break between two sentences. -/
def pWithPb : XTree :=
  .node "p" [] (lit "A. ") [.node "pb" [("n", lit "3")] [] [] (lit "B.")] []

/-- Fixture: source document whose only paragraph contains a page break. -/
def srcDocPb : TEIDoc := mkDoc (mkTei [pWithPb])

/-- Fixture: the alignment map aligning that paragraph with `X.`. -/
def amapPb : EnhancedAlignmentMap :=
  createEnhancedAlignmentMap srcDocPb.textElements tgtDocX.textElements alAB

/-- Fixture: two units with identical text but distinct attributes. -/
def unitN1 : TEIElement := ⟨"p", lit "abc", [("n", lit "1")]⟩

/-- Fixture: the later duplicate of `unitN1`. -/
def unitN2 : TEIElement := ⟨"p", lit "abc", [("n", lit "2")]⟩

/-- Placeholder tree for `Option.getD` on fixture pipelines. -/
def dummyTree : XTree := .node "empty" [] [] [] []

/-- Fixture: the assembled corpus of the `A.`/`X.` request. -/
def corpusAX : XTree :=
  (generateAlignedTei srcDocA tgtDocX alAX (lit "it") (lit "en")).getD dummyTree

/-- Fixture: the assembled corpus of the unmappable-group request. -/
def corpusZZ : XTree :=
  (generateAlignedTei srcDocA tgtDocX alZZ (lit "it") (lit "en")).getD dummyTree

/-- Tail of the last element of a child list (empty for the empty list). -/
def lastTail : List XTree → Str
  | [] => []
  | [e] => e.tail
  | _ :: e :: r => lastTail (e :: r)

/-- The three structural counts agree between a rewritten and an original
child list, and ok-ness is preserved. -/
def structKidsOk (orig new : List XTree) : Prop :=
  countTagList "div" new = countTagList "div" orig ∧
    countTagList "pb" new = countTagList "pb" orig ∧
    countTagList "head" new = countTagList "head" orig ∧
    (okTreeList orig = true → okTreeList new = true)

/-- A node rewrite preserves the three structural counts and ok-ness,
assuming the original node is ok. -/
def nodeOkPres (orig new : XTree) : Prop :=
  okTree orig = true →
    (countTag "div" new = countTag "div" orig ∧
     countTag "pb" new = countTag "pb" orig ∧
     countTag "head" new = countTag "head" orig ∧
     okTree new = true)

/-- List version of `nodeOkPres`. -/
def listOkPres (orig new : List XTree) : Prop :=
  okTreeList orig = true →
    (countTagList "div" new = countTagList "div" orig ∧
     countTagList "pb" new = countTagList "pb" orig ∧
     countTagList "head" new = countTagList "head" orig ∧
     okTreeList new = true)

/-- Fixture: the projected source document of the `A.`/`X.` request. -/
def projA : XTree := (createTeiWithIds srcDocA amapAX (lit "it")).getD dummyTree

example : cleanText (lit "  a\nb\t c ") = lit "a b c" := by decide

example : cleanText (lit "") = lit "" := by decide

theorem mem_collapseAux_ws (prev : Bool) (s : Str) (c : Char)
    (h : c ∈ collapseAux isWs prev s) : isWs c = false ∨ c = ' ' := by
  induction s generalizing prev with
  | nil => cases prev <;> simp [collapseAux] at h
  | cons d ds ih =>
    cases prev with
    | true =>
      simp only [collapseAux] at h
      by_cases hd : isWs d = true
      · rw [if_pos hd] at h; exact ih true h
      · rw [if_neg (by simp [hd])] at h
        rcases List.mem_cons.mp h with rfl | h2
        · exact Or.inl (by simpa using hd)
        · exact ih false h2
    | false =>
      simp only [collapseAux] at h
      by_cases hd : isWs d = true
      · rw [if_pos hd] at h
        rcases List.mem_cons.mp h with rfl | h2
        · exact Or.inr rfl
        · exact ih true h2
      · rw [if_neg (by simp [hd])] at h
        rcases List.mem_cons.mp h with rfl | h2
        · exact Or.inl (by simpa using hd)
        · exact ih false h2

theorem noAdjWs_tail {a : Char} {t : Str} (h : noAdjWs (a :: t) = true) :
    noAdjWs t = true := by
  cases t with
  | nil => rfl
  | cons b r => simp only [noAdjWs, Bool.and_eq_true] at h; exact h.2

theorem collapseAux_headOk_noAdj (prev : Bool) (s : Str) :
    noAdjWs (collapseAux isWs prev s) = true ∧
      (prev = true → headOk (collapseAux isWs prev s) = true) := by
  induction s generalizing prev with
  | nil => cases prev <;> simp [collapseAux, noAdjWs, headOk]
  | cons d ds ih =>
    have key : ∀ (b : Bool), headOk (collapseAux isWs b ds) = true →
        noAdjWs (collapseAux isWs b ds) = true →
        noAdjWs (d :: collapseAux isWs b ds) = true := by
      intro b h1 h2
      cases hc : collapseAux isWs b ds with
      | nil => rfl
      | cons e r =>
        rw [hc] at h1 h2
        simp only [headOk] at h1
        simp only [noAdjWs, Bool.and_eq_true]
        exact ⟨by simp [Bool.not_eq_true'] at h1 ⊢; simp [h1], h2⟩
    cases prev with
    | true =>
      simp only [collapseAux]
      by_cases hd : isWs d = true
      · rw [if_pos hd]
        refine ⟨(ih true).1, fun _ => (ih true).2 rfl⟩
      · rw [if_neg (by simp [hd])]
        constructor
        · by_cases hh : headOk (collapseAux isWs false ds) = true
          · exact key false hh (ih false).1
          · -- head of collapseAux false ds is ws ⇒ it is ' ' and d is not ws: still fine
            cases hc : collapseAux isWs false ds with
            | nil => rfl
            | cons e r =>
              have hn := (ih false).1
              rw [hc] at hn
              simp only [noAdjWs, Bool.and_eq_true]
              refine ⟨?_, hn⟩
              simp [Bool.not_eq_true'] at hd
              simp [hd]
        · intro _; simp [headOk, hd]
    | false =>
      simp only [collapseAux]
      by_cases hd : isWs d = true
      · rw [if_pos hd]
        constructor
        · cases hc : collapseAux isWs true ds with
          | nil => rfl
          | cons e r =>
            have h1 := (ih true).2 rfl
            have h2 := (ih true).1
            rw [hc] at h1 h2
            simp only [headOk] at h1
            simp only [noAdjWs, Bool.and_eq_true]
            refine ⟨?_, h2⟩
            simp [Bool.not_eq_true'] at h1
            simp [h1]
        · intro h; cases h
      · rw [if_neg (by simp [hd])]
        constructor
        · cases hc : collapseAux isWs false ds with
          | nil => rfl
          | cons e r =>
            have h2 := (ih false).1
            rw [hc] at h2
            simp only [noAdjWs, Bool.and_eq_true]
            refine ⟨?_, h2⟩
            simp [Bool.not_eq_true'] at hd
            simp [hd]
        · intro h; cases h

theorem stripEnd_sublist (s : Str) : (stripEnd s).Sublist s := by
  induction s with
  | nil => simp [stripEnd]
  | cons c cs ih =>
    simp only [stripEnd]
    cases h : stripEnd cs with
    | nil =>
      by_cases hw : isWs c = true
      · simp [hw]
      · simp only [hw, Bool.false_eq_true, if_false]
        exact List.Sublist.cons₂ c (by rw [h] at ih; exact ih)
    | cons e r =>
      exact List.Sublist.cons₂ c (by rw [h] at ih; exact ih)

theorem stripEnd_decomp (s : Str) : ∃ t, s = stripEnd s ++ t := by
  induction s with
  | nil => exact ⟨[], rfl⟩
  | cons c cs ih =>
    obtain ⟨t, ht⟩ := ih
    simp only [stripEnd]
    cases h : stripEnd cs with
    | nil =>
      by_cases hw : isWs c = true
      · exact ⟨c :: cs, by simp [hw]⟩
      · refine ⟨cs, ?_⟩
        simp [hw]
    | cons e r =>
      refine ⟨t, ?_⟩
      rw [h] at ht
      simp [← ht]

theorem noAdjWs_append_left {l t : Str} (h : noAdjWs (l ++ t) = true) :
    noAdjWs l = true := by
  induction l with
  | nil => rfl
  | cons a l' ih =>
    cases l' with
    | nil => rfl
    | cons b r =>
      simp only [List.cons_append, noAdjWs, Bool.and_eq_true] at h ⊢
      exact ⟨h.1, ih h.2⟩

theorem noAdjWs_dropWhile {l : Str} (p : Char → Bool) (h : noAdjWs l = true) :
    noAdjWs (l.dropWhile p) = true := by
  induction l with
  | nil => simpa using h
  | cons a l' ih =>
    by_cases hp : p a = true
    · rw [List.dropWhile_cons_of_pos hp]
      exact ih (noAdjWs_tail h)
    · rw [List.dropWhile_cons_of_neg (by simp [hp])]
      exact h

theorem headOk_dropWhile (l : Str) : headOk (l.dropWhile isWs) = true := by
  induction l with
  | nil => rfl
  | cons a l' ih =>
    by_cases hp : isWs a = true
    · rw [List.dropWhile_cons_of_pos hp]; exact ih
    · rw [List.dropWhile_cons_of_neg (by simp [hp])]
      simp [headOk, hp]

theorem headOk_stripEnd {l : Str} (h : headOk l = true) :
    headOk (stripEnd l) = true := by
  cases l with
  | nil => rfl
  | cons c cs =>
    simp only [headOk] at h
    simp only [stripEnd]
    cases hc : stripEnd cs with
    | nil =>
      by_cases hw : isWs c = true
      · simp [hw] at h
      · simp [hw, headOk]
    | cons e r => simp [headOk, h]

theorem lastOk_stripEnd (s : Str) : lastOk (stripEnd s) = true := by
  induction s with
  | nil => rfl
  | cons c cs ih =>
    simp only [stripEnd]
    cases hc : stripEnd cs with
    | nil =>
      by_cases hw : isWs c = true
      · simp [hw, lastOk]
      · simp [hw, lastOk]
    | cons e r =>
      rw [hc] at ih
      cases r with
      | nil => simpa [lastOk] using ih
      | cons f g => simpa [lastOk] using ih

theorem stripEnd_of_lastOk {s : Str} (h : lastOk s = true) : stripEnd s = s := by
  induction s with
  | nil => rfl
  | cons c cs ih =>
    cases cs with
    | nil =>
      simp only [lastOk] at h
      simp only [stripEnd]
      simp [Bool.not_eq_true'] at h
      simp [h, stripEnd]
    | cons d ds =>
      simp only [lastOk] at h
      have hds := ih h
      have : stripEnd (c :: d :: ds) = match stripEnd (d :: ds) with
          | [] => if isWs c = true then [] else [c]
          | r => c :: r := rfl
      rw [this, hds]

theorem collapseAux_id_of_none (p : Char → Bool) {s : Str}
    (h : ∀ c ∈ s, p c = false) : ∀ prev, collapseAux p prev s = s := by
  induction s with
  | nil => intro prev; cases prev <;> rfl
  | cons c cs ih =>
    intro prev
    have hc : p c = false := h c (List.mem_cons_self c cs)
    have ihs := ih (fun d hd => h d (List.mem_cons_of_mem c hd))
    cases prev <;> simp only [collapseAux, hc, Bool.false_eq_true, if_false] <;>
      rw [ihs false]

theorem collapseAux_fixed {s : Str} (hall : allWsSpace s = true)
    (hadj : noAdjWs s = true) : collapseAux isWs false s = s := by
  induction s with
  | nil => rfl
  | cons c cs ih =>
    have hall' : allWsSpace cs = true := by
      simp only [allWsSpace, List.all_cons, Bool.and_eq_true] at hall
      exact hall.2
    have hadj' := noAdjWs_tail hadj
    by_cases hw : isWs c = true
    · have hsp : c = ' ' := by
        simp only [allWsSpace, List.all_cons, Bool.and_eq_true] at hall
        rcases Bool.or_eq_true_iff.mp hall.1 with h | h
        · rw [Bool.not_eq_true'] at h; rw [h] at hw; cases hw
        · exact of_decide_eq_true h
      simp only [collapseAux, hw, if_true]
      have htail : collapseAux isWs true cs = cs := by
        cases cs with
        | nil => rfl
        | cons d ds =>
          have hd : isWs d = false := by
            simp only [noAdjWs, Bool.and_eq_true] at hadj
            have := hadj.1
            simp only [hw, Bool.true_and, Bool.not_eq_true'] at this
            exact this
          simp only [collapseAux, hd, Bool.false_eq_true, if_false]
          have := ih hall' hadj'
          simp only [collapseAux, hd, Bool.false_eq_true, if_false] at this
          exact this
      rw [htail, hsp]
    · simp only [collapseAux, hw, Bool.false_eq_true, if_false]
      rw [ih hall' hadj']

theorem dropWhile_id_of_headOk {s : Str} (h : headOk s = true) :
    s.dropWhile isWs = s := by
  cases s with
  | nil => rfl
  | cons c cs =>
    simp only [headOk, Bool.not_eq_true'] at h
    simp [List.dropWhile_cons, h]

theorem allWsSpace_of_sublist {l₁ l₂ : Str} (hs : l₁.Sublist l₂)
    (h : allWsSpace l₂ = true) : allWsSpace l₁ = true := by
  simp only [allWsSpace, List.all_eq_true] at h ⊢
  exact fun c hc => h c (hs.subset hc)

/-- The output of the cleaner pipeline is in normal form: all whitespace is a
single space, no two adjacent whitespace characters, no leading or trailing
whitespace. -/
theorem clean_normal_form (x : Str) :
    allWsSpace (stripWs (collapse isWs x)) = true ∧
      noAdjWs (stripWs (collapse isWs x)) = true ∧
      headOk (stripWs (collapse isWs x)) = true ∧
      lastOk (stripWs (collapse isWs x)) = true := by
  have h1 : allWsSpace (collapse isWs x) = true := by
    simp only [allWsSpace, List.all_eq_true]
    intro c hc
    rcases mem_collapseAux_ws false x c hc with h | h
    · simp [h]
    · simp [h]
  have h2 : noAdjWs (collapse isWs x) = true := (collapseAux_headOk_noAdj false x).1
  have hdw : allWsSpace ((collapse isWs x).dropWhile isWs) = true :=
    allWsSpace_of_sublist (List.dropWhile_sublist isWs) h1
  have hdw2 : noAdjWs ((collapse isWs x).dropWhile isWs) = true :=
    noAdjWs_dropWhile isWs h2
  refine ⟨allWsSpace_of_sublist (stripEnd_sublist _) hdw, ?_, ?_, ?_⟩
  · obtain ⟨t, ht⟩ := stripEnd_decomp ((collapse isWs x).dropWhile isWs)
    exact noAdjWs_append_left (ht ▸ hdw2)
  · exact headOk_stripEnd (headOk_dropWhile _)
  · exact lastOk_stripEnd _

/-- C9: the text cleaner `_clean_text` is idempotent:
`clean(clean(s)) == clean(s)` for every string `s`. -/
theorem clean_text_idempotent (s : Str) : cleanText (cleanText s) = cleanText s := by
  by_cases hs : s = []
  · subst hs; rfl
  · simp only [cleanText, hs, if_false]
    set o := stripWs (collapse isWs (collapse isNl s)) with ho
    by_cases hoe : o = []
    · rw [hoe]; rfl
    · rw [if_neg hoe]
      obtain ⟨ha, hn, hh, hl⟩ := clean_normal_form (collapse isNl s)
      rw [← ho] at ha hn hh hl
      have hno_nl : ∀ c ∈ o, isNl c = false := by
        intro c hc
        simp only [allWsSpace, List.all_eq_true] at ha
        rcases Bool.or_eq_true_iff.mp (ha c hc) with h | h
        · rw [Bool.not_eq_true'] at h
          cases hnl : isNl c
          · rfl
          · exfalso
            have : isWs c = true := by
              simp only [isNl, Bool.or_eq_true] at hnl
              simp only [isWs, Bool.or_eq_true]
              rcases hnl with h' | h' <;> simp [h']
            rw [h] at this; cases this
        · have : c = ' ' := of_decide_eq_true h
          subst this; rfl
      have hcnl : collapse isNl o = o := collapseAux_id_of_none isNl hno_nl false
      rw [hcnl]
      have hws : collapse isWs o = o := collapseAux_fixed ha hn
      rw [hws]
      simp only [stripWs, stripStart]
      rw [dropWhile_id_of_headOk hh, stripEnd_of_lastOk hl]

example : findIdx (lit "B C") (lit "AB C") = some 1 := by decide

example : containsStr (lit "") (lit "x") = true := by decide

example : containsStr (lit "zz") (lit "x") = false := by decide

example : splitWs (lit "  a bb  c ") = [lit "a", lit "bb", lit "c"] := by decide

theorem leadsWith_decomp {needle hay : Str} (h : leadsWith needle hay = true) :
    hay = needle ++ hay.drop needle.length := by
  induction needle generalizing hay with
  | nil => simp
  | cons a as ih =>
    cases hay with
    | nil => cases h
    | cons b bs =>
      simp only [leadsWith, Bool.and_eq_true, decide_eq_true_eq] at h
      obtain ⟨rfl, h2⟩ := h
      simpa using ih h2

theorem findIdx_decomp {needle hay : Str} {i : Nat}
    (h : findIdx needle hay = some i) :
    hay = hay.take i ++ needle ++ hay.drop (i + needle.length) := by
  induction hay generalizing i with
  | nil =>
    simp only [findIdx] at h
    by_cases hl : leadsWith needle [] = true
    · rw [if_pos hl] at h
      cases needle with
      | nil => cases h; rfl
      | cons a as => cases hl
    · rw [if_neg hl] at h; cases h
  | cons b bs ih =>
    simp only [findIdx] at h
    by_cases hl : leadsWith needle (b :: bs) = true
    · rw [if_pos hl] at h
      cases h
      simpa using leadsWith_decomp hl
    · rw [if_neg hl] at h
      simp only [Option.map_eq_some'] at h
      obtain ⟨j, hj, rfl⟩ := h
      have hbs := ih hj
      calc b :: bs = b :: (bs.take j ++ needle ++ bs.drop (j + needle.length)) := by
            rw [← hbs]
        _ = (b :: bs).take (j + 1) ++ needle ++ (b :: bs).drop (j + 1 + needle.length) := by
            simp only [List.take_succ_cons, List.cons_append]
            have hh : j + 1 + needle.length = (j + needle.length) + 1 := by omega
            rw [hh, List.drop_succ_cons]

example :
    getElementText (.node "p" [] (lit "Hello ")
      [.node "hi" [] (lit "world") [] (lit ".")] []) = lit "Hello world ." := by
  decide

/-! ### Link emission lemmas (claims C2, C3, C10) -/
theorem processAlignment_links (L1 L2 : List (Str × TEIElement))
    (m : EnhancedAlignmentMap) (c : Nat) (a : AlignmentPair) :
    (processAlignment L1 L2 (m, c) a).1.links = m.links ++ [linkOf c a] ∧
      (processAlignment L1 L2 (m, c) a).2 = c + 2 :=
  ⟨rfl, rfl⟩

theorem foldl_processAlignment_links (L1 L2 : List (Str × TEIElement)) :
    ∀ (al : List AlignmentPair) (m : EnhancedAlignmentMap) (c : Nat),
      (al.foldl (processAlignment L1 L2) (m, c)).1.links =
        m.links ++ linksFrom c al := by
  intro al
  induction al with
  | nil => intro m c; simp [linksFrom]
  | cons a r ih =>
    intro m c
    rw [List.foldl_cons]
    have hst : processAlignment L1 L2 (m, c) a =
        ((processAlignment L1 L2 (m, c) a).1,
         (processAlignment L1 L2 (m, c) a).2) := rfl
    rw [hst, (processAlignment_links L1 L2 m c a).2, ih]
    rw [(processAlignment_links L1 L2 m c a).1]
    simp [linksFrom]

theorem createEnhancedAlignmentMap_links (srcE tgtE : List TEIElement)
    (al : List AlignmentPair) :
    (createEnhancedAlignmentMap srcE tgtE al).links = linksFrom 0 al := by
  unfold createEnhancedAlignmentMap
  rw [foldl_processAlignment_links]
  rfl

theorem linksFrom_length : ∀ (al : List AlignmentPair) (c : Nat),
    (linksFrom c al).length = al.length := by
  intro al
  induction al with
  | nil => intro c; rfl
  | cons a r ih => intro c; simp [linksFrom, ih]

theorem linkUuids_lb : ∀ (al : List AlignmentPair) (c u : Nat),
    u ∈ linkUuids (linksFrom c al) → c ≤ u := by
  intro al
  induction al with
  | nil => intro c u h; simp [linksFrom, linkUuids] at h
  | cons a r ih =>
    intro c u h
    simp only [linksFrom, linkUuids, List.flatMap_cons, linkOf] at h
    rcases List.mem_append.mp h with h1 | h2
    · rcases List.mem_cons.mp h1 with rfl | h1'
      · exact Nat.le_refl _
      · rcases List.mem_cons.mp h1' with rfl | h1''
        · omega
        · cases h1''
    · have := ih (c + 2) u h2
      omega

theorem linkUuids_nodup : ∀ (al : List AlignmentPair) (c : Nat),
    (linkUuids (linksFrom c al)).Nodup := by
  intro al
  induction al with
  | nil => intro c; simp [linksFrom, linkUuids]
  | cons a r ih =>
    intro c
    simp only [linksFrom, linkUuids, List.flatMap_cons, linkOf]
    refine List.Nodup.cons ?_ (List.Nodup.cons ?_ (ih (c + 2)))
    · intro hmem
      rcases List.mem_cons.mp hmem with h | h
      · omega
      · have := linkUuids_lb r (c + 2) c h
        omega
    · intro hmem
      have := linkUuids_lb r (c + 2) (c + 1) hmem
      omega

/-! ### Claim C6: the granularity classifier -/
/-- C6: `_determine_alignment_type` returns `paragraph` when the span equals
the unit's cleaned text, `sentence` when the span is a strict substring
shorter than 0.9 of the unit text, and `paragraph` in every remaining
case. -/
theorem determine_alignment_type_cases (span : Str) (e : TEIElement) :
    determineAlignmentType span e =
      (if span = stripWs e.text then "paragraph"
       else if containsStr span (stripWs e.text) = true ∧
           10 * span.length < 9 * (stripWs e.text).length then "sentence"
       else "paragraph") := by
  by_cases he : e.text = []
  · have hs : stripWs e.text = [] := by rw [he]; rfl
    rw [determineAlignmentType, if_pos he, hs]
    by_cases hsp : span = []
    · rw [if_pos hsp]
    · rw [if_neg hsp]
      have : ¬(containsStr span [] = true ∧ 10 * span.length < 9 * ([] : Str).length) := by
        rintro ⟨h1, h2⟩
        simp at h2
      rw [if_neg this]
  · rw [determineAlignmentType, if_neg he]

/-! ### Claim C8: invalid XML handling -/
/-- C8: `parse_tei_file` fails with `InvalidXML` exactly when the input is
not well-formed, and a malformed document on either side aborts
`align_tei_documents` with that error before the external Aligner is ever
invoked, producing no output. -/
theorem invalid_xml_aborts_before_aligner :
    (∀ xml : Option XTree,
      parseTeiFile xml = .error .invalidXML ↔ xml = none) ∧
    (∀ (sx tx : Option XTree) (slo tlo : Option Str)
        (align : Str → Str → List AlignmentPair),
      sx = none ∨ tx = none →
        (alignTeiDocuments sx tx slo tlo align).result = .error .invalidXML ∧
          (alignTeiDocuments sx tx slo tlo align).alignerInvoked = false) := by
  constructor
  · intro xml
    cases xml with
    | none => simp [parseTeiFile]
    | some r => simp [parseTeiFile]
  · intro sx tx slo tlo align h
    rcases h with rfl | rfl
    · exact ⟨rfl, rfl⟩
    · cases sx with
      | none => exact ⟨rfl, rfl⟩
      | some r => exact ⟨rfl, rfl⟩

/-- Witness for C8 at concrete inputs. -/
theorem invalid_xml_aborts_before_aligner_witness :
    parseTeiFile none = .error .invalidXML ∧
      (alignTeiDocuments (some (mkTei [])) none none none
        (fun _ _ => [])).alignerInvoked = false :=
  ⟨(invalid_xml_aborts_before_aligner.1 none).mpr rfl,
   (invalid_xml_aborts_before_aligner.2 (some (mkTei [])) none none none
      (fun _ _ => []) (Or.inr rfl)).2⟩

/-! ### Claims C10 and C3: links in the assembled output -/
theorem findDesc_corpusHeader (sl tl : Str) :
    findDesc (fun e => e.tag = "linkGrp") (corpusHeader sl tl) = none := by
  simp +decide [corpusHeader, findDesc, findDescList, XTree.tag]

theorem linkGrp_of_generate {sd td : TEIDoc} {al : List AlignmentPair}
    {sl tl : Str} {t : XTree}
    (h : generateAlignedTei sd td al sl tl = some t) :
    (findDesc (fun e => e.tag = "linkGrp") t).map (fun lg => lg.children) =
      some ((createEnhancedAlignmentMap sd.textElements td.textElements
        al).links.map linkElem) := by
  simp only [generateAlignedTei] at h
  cases h1 : createTeiWithIds sd
      (createEnhancedAlignmentMap sd.textElements td.textElements al) sl with
  | none => rw [h1] at h; cases h
  | some srcT =>
    cases h2 : createTeiWithIds td
        (createEnhancedAlignmentMap sd.textElements td.textElements al) tl with
    | none => rw [h1, h2] at h; cases h
    | some tgtT =>
      rw [h1, h2] at h
      cases h
      show (findDescList (fun e => e.tag = "linkGrp")
        [corpusHeader sl tl, standOffNode _, srcT, tgtT]).map _ = _
      rw [findDescList]
      have hhdr : (fun e => e.tag = "linkGrp") (corpusHeader sl tl) = false := by
        simp [corpusHeader, XTree.tag]
      rw [if_neg (by simp [hhdr])]
      rw [findDesc_corpusHeader]
      rw [findDescList]
      rw [if_neg (by simp [standOffNode, XTree.tag])]
      simp only [standOffNode, findDesc, findDescList, Option.map_eq_some']
      exact ⟨_, rfl, rfl⟩

/-- C10: the returned `alignment_count` equals the number of groups returned
by the external Aligner, and the standOff `linkGrp` holds exactly one `link`
per group, unconditionally. -/
theorem one_link_per_group_and_count :
    (∀ (sd td : TEIDoc) (al : List AlignmentPair) (sl tl : Str) (t : XTree),
      generateAlignedTei sd td al sl tl = some t →
        (findDesc (fun e => e.tag = "linkGrp") t).map
          (fun lg => lg.children.length) = some al.length) ∧
    (∀ (sx tx : Option XTree) (slo tlo : Option Str)
        (align : Str → Str → List AlignmentPair) (out : TeiAlignResult),
      (alignTeiDocuments sx tx slo tlo align).result = .ok out →
        ∃ sd td, parseTeiFile sx = .ok sd ∧ parseTeiFile tx = .ok td ∧
          out.alignmentCount =
            (align (joinWith (lit "\n\n") (unitTexts sd))
              (joinWith (lit "\n\n") (unitTexts td))).length ∧
          (findDesc (fun e => e.tag = "linkGrp") out.alignedRoot).map
            (fun lg => lg.children.length) = some out.alignmentCount) := by
  have key : ∀ (sd td : TEIDoc) (al : List AlignmentPair) (sl tl : Str)
      (t : XTree), generateAlignedTei sd td al sl tl = some t →
      (findDesc (fun e => e.tag = "linkGrp") t).map
        (fun lg => lg.children.length) = some al.length := by
    intro sd td al sl tl t h
    have h2 := linkGrp_of_generate h
    cases hf : findDesc (fun e => e.tag = "linkGrp") t with
    | none => rw [hf] at h2; cases h2
    | some lg =>
      rw [hf] at h2
      simp only [Option.map_some', Option.some.injEq] at h2
      simp only [Option.map_some', Option.some.injEq, h2]
      rw [List.length_map, createEnhancedAlignmentMap_links, linksFrom_length]
  refine ⟨key, ?_⟩
  intro sx tx slo tlo align out h
  cases sx with
  | none => cases h
  | some sroot =>
    cases tx with
    | none => cases h
    | some troot =>
      simp only [alignTeiDocuments, parseTeiFile] at h
      refine ⟨_, _, rfl, rfl, ?_⟩
      cases hg : generateAlignedTei
          ⟨sroot, extractTextElements sroot, extractLanguage sroot,
            extractTitle sroot⟩
          ⟨troot, extractTextElements troot, extractLanguage troot,
            extractTitle troot⟩
          (align (joinWith (lit "\n\n") (unitTexts
            ⟨sroot, extractTextElements sroot, extractLanguage sroot,
              extractTitle sroot⟩))
            (joinWith (lit "\n\n") (unitTexts
              ⟨troot, extractTextElements troot, extractLanguage troot,
                extractTitle troot⟩)))
          (pyOrLang slo (extractLanguage sroot))
          (pyOrLang tlo (extractLanguage troot)) with
      | none => rw [hg] at h; cases h
      | some t =>
        rw [hg] at h
        cases h
        exact ⟨rfl, key _ _ _ _ _ _ hg⟩

/-- C10 witness: the `A.`/`X.` fixture emits exactly one link. -/
theorem one_link_per_group_and_count_witness :
    (findDesc (fun e => e.tag = "linkGrp") corpusAX).map
      (fun lg => lg.children.length) = some alAX.length :=
  one_link_per_group_and_count.1 srcDocA tgtDocX alAX (lit "it") (lit "en")
    corpusAX rfl

/-- C3 counterexample: the group `ZZZ`/`QQQ` matches no unit on either side,
yet its link still appears in the standOff output (the claim requires it to
be dropped). -/
theorem unmappable_group_link_not_dropped :
    findBestMatchingElement (lit "ZZZ") (buildTextLookup srcDocA.textElements)
        = none ∧
      findBestMatchingElement (lit "QQQ")
        (buildTextLookup tgtDocX.textElements) = none ∧
      (findDesc (fun e => e.tag = "linkGrp") corpusZZ).map
        (fun lg => lg.children.length) = some 1 := by
  refine ⟨by decide, by decide, ?_⟩
  rfl

/-- C3 amended: a link is emitted for every alignment group unconditionally,
with both side identifiers always present in its target, whether or not
either side could be mapped to a unit. -/
theorem links_emitted_unconditionally :
    (∀ (srcE tgtE : List TEIElement) (al : List AlignmentPair),
      (createEnhancedAlignmentMap srcE tgtE al).links = linksFrom 0 al) ∧
    (∀ (sd td : TEIDoc) (al : List AlignmentPair) (sl tl : Str) (t : XTree),
      generateAlignedTei sd td al sl tl = some t →
        (findDesc (fun e => e.tag = "linkGrp") t).map (fun lg => lg.children) =
          some ((linksFrom 0 al).map linkElem)) := by
  refine ⟨createEnhancedAlignmentMap_links, ?_⟩
  intro sd td al sl tl t h
  rw [linkGrp_of_generate h, createEnhancedAlignmentMap_links]

/-- C3 witness: the unmappable fixture group still yields its link element. -/
theorem links_emitted_unconditionally_witness :
    (findDesc (fun e => e.tag = "linkGrp") corpusZZ).map (fun lg => lg.children)
      = some ((linksFrom 0 alZZ).map linkElem) :=
  links_emitted_unconditionally.2 srcDocA tgtDocX alZZ (lit "it") (lit "en")
    corpusZZ rfl

/-- C2 counterexample: in the assembled output of the 2-sentence group
`A. B.` against `X.`, the two sentence-level `seg` elements of the source
side carry the same identifier `0`. -/
theorem duplicate_seg_identifiers :
    (generateAlignedTei srcDocAB tgtDocX alAB (lit "it") (lit "en")).map
        collectXmlIds = some [lit "0", lit "0", lit "1"] ∧
      ¬ ([lit "0", lit "0", lit "1"] : List Str).Nodup := by
  exact ⟨rfl, by decide⟩

/-- C2 amended: identifiers are unique across alignment groups and across
the two sides of one group (the per-group `uuid4` draws never collide), but
the sentence-level entries of one group side reuse that side's identifier,
so several `seg` elements may share one id. -/
theorem link_identifiers_unique (srcE tgtE : List TEIElement)
    (al : List AlignmentPair) :
    (linkUuids (createEnhancedAlignmentMap srcE tgtE al).links).Nodup := by
  rw [createEnhancedAlignmentMap_links]
  exact linkUuids_nodup al 0

/-! ### Claim C1: which side's map is used -/
/-- C1 counterexample: the same source document and alignment map, projected
once with language `en` and once with language `it`: the source-side map
entry for `A.` exists, yet with `en` no `seg` is produced because the
language code — not the document's role — selects the map side. -/
theorem map_side_chosen_by_language_code :
    assocGet (lit "A.") amapAX.sourceElements ≠ none ∧
      (createTeiWithIds srcDocA amapAX (lit "en")).map (countTag "seg")
        = some 0 ∧
      (createTeiWithIds srcDocA amapAX (lit "it")).map (countTag "seg")
        = some 1 := by
  exact ⟨by decide, rfl, rfl⟩

/-- C1 amended: the two projected trees are appended to the corpus in
source-then-target order, but the map side used for each projected document
is selected by its language code (source map iff the language is it/de/fr),
not by its role in the pipeline.  When the selected side is non-empty the
projection depends on that side alone; when it is empty a legacy fallback
reads `alignment_map[elem_text]`, so values of the unselected side can reach
the projected tree. -/
theorem projected_trees_order_and_side_selection :
    (∀ (sd td : TEIDoc) (al : List AlignmentPair) (sl tl : Str) (t : XTree),
      generateAlignedTei sd td al sl tl = some t →
        ∃ s' t',
          createTeiWithIds sd
              (createEnhancedAlignmentMap sd.textElements td.textElements al)
              sl = some s' ∧
          createTeiWithIds td
              (createEnhancedAlignmentMap sd.textElements td.textElements al)
              tl = some t' ∧
          t.children =
            [corpusHeader sl tl,
             standOffNode
               (createEnhancedAlignmentMap sd.textElements td.textElements al),
             s', t']) ∧
    (∀ (doc : TEIDoc) (m m' : EnhancedAlignmentMap) (lang : Str),
      lang ∈ langFam → m.sourceElements = m'.sourceElements →
        m.sourceElements ≠ [] →
        createTeiWithIds doc m lang = createTeiWithIds doc m' lang) ∧
    (∀ (doc : TEIDoc) (m m' : EnhancedAlignmentMap) (lang : Str),
      lang ∉ langFam → m.targetElements = m'.targetElements →
        m.targetElements ≠ [] →
        createTeiWithIds doc m lang = createTeiWithIds doc m' lang) := by
  refine ⟨?_, ?_, ?_⟩
  · intro sd td al sl tl t h
    simp only [generateAlignedTei] at h
    cases h1 : createTeiWithIds sd
        (createEnhancedAlignmentMap sd.textElements td.textElements al) sl with
    | none => rw [h1] at h; cases h
    | some srcT =>
      cases h2 : createTeiWithIds td
          (createEnhancedAlignmentMap sd.textElements td.textElements al) tl with
      | none => rw [h1, h2] at h; cases h
      | some tgtT =>
        rw [h1, h2] at h
        cases h
        exact ⟨srcT, tgtT, rfl, rfl, rfl⟩
  · intro doc m m' lang hmem heq hne
    have hne' : ¬(m'.sourceElements = []) := by rw [← heq]; exact hne
    cases hh : rewriteHeaderLang doc.root lang with
    | none => simp only [createTeiWithIds, hh]
    | some t1 =>
      simp only [createTeiWithIds, hh]
      rw [if_pos hmem, if_pos hmem, heq, if_neg hne', if_neg hne']
  · intro doc m m' lang hmem heq hne
    have hne' : ¬(m'.targetElements = []) := by rw [← heq]; exact hne
    cases hh : rewriteHeaderLang doc.root lang with
    | none => simp only [createTeiWithIds, hh]
    | some t1 =>
      simp only [createTeiWithIds, hh]
      rw [if_neg hmem, if_neg hmem, heq, if_neg hne', if_neg hne']

/-- C1 witness: with language `it` and a non-empty source-side map the
projection ignores the target-side map entirely; with `en` and a non-empty
target-side map it ignores the source-side map. -/
theorem projected_trees_order_and_side_selection_witness :
    createTeiWithIds srcDocA amapAX (lit "it") =
        createTeiWithIds srcDocA
          ⟨amapAX.links, amapAX.sourceElements, []⟩ (lit "it") ∧
      createTeiWithIds srcDocA amapAX (lit "en") =
        createTeiWithIds srcDocA
          ⟨amapAX.links, [], amapAX.targetElements⟩ (lit "en") :=
  ⟨projected_trees_order_and_side_selection.2.1 srcDocA amapAX
      ⟨amapAX.links, amapAX.sourceElements, []⟩ (lit "it") (by decide) rfl
      (by decide),
   projected_trees_order_and_side_selection.2.2 srcDocA amapAX
      ⟨amapAX.links, [], amapAX.targetElements⟩ (lit "en") (by decide) rfl
      (by decide)⟩

/-! ### Claim C7: findBestMatchingUnit -/
theorem scanBest_isSome (span : Str) :
    ∀ (l : List (Str × TEIElement)) (bm : Option TEIElement) (bn bd : Nat),
      bm.isSome = true → (scanBest span l (bm, bn, bd)).1.isSome = true := by
  intro l
  induction l with
  | nil => intro bm bn bd h; exact h
  | cons kv rest ih =>
    intro bm bn bd h
    obtain ⟨k, e⟩ := kv
    simp only [scanBest]
    split
    · exact ih (some e) span.length k.length rfl
    · exact ih bm bn bd h

theorem scanBest_dpos (span : Str) :
    ∀ (l : List (Str × TEIElement)) (bm : Option TEIElement) (bn bd : Nat),
      (∀ kv ∈ l, kv.1 ≠ ([] : Str)) → 0 < bd →
      0 < (scanBest span l (bm, bn, bd)).2.2 := by
  intro l
  induction l with
  | nil => intro bm bn bd _ h; exact h
  | cons kv rest ih =>
    intro bm bn bd hk h
    obtain ⟨k, e⟩ := kv
    have hkne : k ≠ [] := hk (k, e) (List.mem_cons_self _ _)
    have hkrest : ∀ kv ∈ rest, kv.1 ≠ ([] : Str) :=
      fun kv hkv => hk kv (List.mem_cons_of_mem _ hkv)
    simp only [scanBest]
    split
    · exact ih (some e) span.length k.length hkrest
        (List.length_pos.mpr hkne)
    · exact ih bm bn bd hkrest h

theorem scanBest_ratio_ge (span : Str) :
    ∀ (l : List (Str × TEIElement)) (bm : Option TEIElement) (bn bd : Nat),
      (∀ kv ∈ l, kv.1 ≠ ([] : Str)) → 0 < bd →
      bn * (scanBest span l (bm, bn, bd)).2.2 ≤
        (scanBest span l (bm, bn, bd)).2.1 * bd := by
  intro l
  induction l with
  | nil =>
    intro bm bn bd _ _
    simp only [scanBest]
    exact Nat.le_refl _
  | cons kv rest ih =>
    intro bm bn bd hk hd
    obtain ⟨k, e⟩ := kv
    have hkne : k ≠ [] := hk (k, e) (List.mem_cons_self _ _)
    have hkpos : 0 < k.length := List.length_pos.mpr hkne
    have hkrest : ∀ kv ∈ rest, kv.1 ≠ ([] : Str) :=
      fun kv hkv => hk kv (List.mem_cons_of_mem _ hkv)
    simp only [scanBest]
    split
    · rename_i hbeat
      -- the new state strictly beats the old; the final state beats the new
      have h2 := ih (some e) span.length k.length hkrest hkpos
      -- combine: bn/bd < span.length/k.length ≤ final
      have hb : bn * k.length < span.length * bd := hbeat.2
      set r := scanBest span rest (some e, span.length, k.length) with hr
      have hrd : 0 < r.2.2 := scanBest_dpos span rest _ _ _ hkrest hkpos
      -- h2 : span.length * r.2.2 ≤ r.2.1 * k.length
      -- goal : bn * r.2.2 ≤ r.2.1 * bd
      have c1 : bn * k.length * r.2.2 ≤ span.length * bd * r.2.2 :=
        Nat.mul_le_mul_right _ (Nat.le_of_lt hb)
      have c2 : span.length * r.2.2 * bd ≤ r.2.1 * k.length * bd :=
        Nat.mul_le_mul_right _ h2
      have : bn * r.2.2 * k.length ≤ r.2.1 * bd * k.length := by
        calc bn * r.2.2 * k.length = bn * k.length * r.2.2 := by ring
          _ ≤ span.length * bd * r.2.2 := c1
          _ = span.length * r.2.2 * bd := by ring
          _ ≤ r.2.1 * k.length * bd := c2
          _ = r.2.1 * bd * k.length := by ring
      exact Nat.le_of_mul_le_mul_right this hkpos
    · exact ih bm bn bd hkrest hd

theorem scanBest_beats_entries (span : Str) :
    ∀ (l : List (Str × TEIElement)) (bm : Option TEIElement) (bn bd : Nat),
      (∀ kv ∈ l, kv.1 ≠ ([] : Str)) → 0 < bd →
      ∀ kv ∈ l, containsStr span kv.1 = true →
        span.length * (scanBest span l (bm, bn, bd)).2.2 ≤
          (scanBest span l (bm, bn, bd)).2.1 * kv.1.length := by
  intro l
  induction l with
  | nil => intro bm bn bd _ _ kv hkv; cases hkv
  | cons kv0 rest ih =>
    intro bm bn bd hk hd kv hkv hc
    obtain ⟨k, e⟩ := kv0
    have hkne : k ≠ [] := hk (k, e) (List.mem_cons_self _ _)
    have hkpos : 0 < k.length := List.length_pos.mpr hkne
    have hkrest : ∀ kv ∈ rest, kv.1 ≠ ([] : Str) :=
      fun kv hkv => hk kv (List.mem_cons_of_mem _ hkv)
    rcases List.mem_cons.mp hkv with rfl | hmem
    · -- the head entry itself
      simp only [scanBest]
      split
      · rename_i hbeat
        have h2 := scanBest_ratio_ge span rest (some e) span.length k.length
          hkrest hkpos
        exact h2
      · rename_i hnbeat
        -- the head did not beat the running best: best ≥ head, final ≥ best
        have hcs : containsStr span k = true := hc
        have hge : span.length * bd ≤ bn * k.length := by
          rw [not_and] at hnbeat
          have h3 := hnbeat hcs
          omega
        have h2 := scanBest_ratio_ge span rest bm bn bd hkrest hd
        set r := scanBest span rest (bm, bn, bd) with hr
        have hrd : 0 < r.2.2 := scanBest_dpos span rest _ _ _ hkrest hd
        -- h2 : bn * r.2.2 ≤ r.2.1 * bd ; hge : span.length * bd ≤ bn * k.length
        -- goal : span.length * r.2.2 ≤ r.2.1 * k.length
        have c1 : span.length * bd * r.2.2 ≤ bn * k.length * r.2.2 :=
          Nat.mul_le_mul_right _ hge
        have c2 : bn * r.2.2 * k.length ≤ r.2.1 * bd * k.length :=
          Nat.mul_le_mul_right _ h2
        have hchain : span.length * r.2.2 * bd ≤ r.2.1 * k.length * bd := by
          calc span.length * r.2.2 * bd = span.length * bd * r.2.2 := by ring
            _ ≤ bn * k.length * r.2.2 := c1
            _ = bn * r.2.2 * k.length := by ring
            _ ≤ r.2.1 * bd * k.length := c2
            _ = r.2.1 * k.length * bd := by ring
        exact Nat.le_of_mul_le_mul_right hchain hd
    · simp only [scanBest]
      split
      · exact ih (some e) span.length k.length hkrest hkpos kv hmem hc
      · exact ih bm bn bd hkrest hd kv hmem hc

theorem scanBest_origin (span : Str) :
    ∀ (l : List (Str × TEIElement)) (bm : Option TEIElement) (bn bd : Nat)
      (e : TEIElement),
      (scanBest span l (bm, bn, bd)).1 = some e →
      (bm = some e ∧ (scanBest span l (bm, bn, bd)).2.2 = bd ∧
        (scanBest span l (bm, bn, bd)).2.1 = bn) ∨
      (∃ kv, kv ∈ l ∧ kv.2 = e ∧
        (scanBest span l (bm, bn, bd)).2.2 = kv.1.length ∧
        (scanBest span l (bm, bn, bd)).2.1 = span.length ∧
        containsStr span kv.1 = true ∧ 0 < span.length) := by
  intro l
  induction l with
  | nil =>
    intro bm bn bd e h
    exact Or.inl ⟨h, rfl, rfl⟩
  | cons kv0 rest ih =>
    intro bm bn bd e h
    obtain ⟨k, e0⟩ := kv0
    simp only [scanBest] at h ⊢
    split at h
    · rename_i hbeat
      rw [show (if containsStr span k = true ∧ bn * k.length <
          span.length * bd then scanBest span rest
            (some e0, span.length, k.length)
          else scanBest span rest (bm, bn, bd)) = scanBest span rest
            (some e0, span.length, k.length) from if_pos hbeat]
      have hspan : 0 < span.length := by
        have := hbeat.2
        by_contra hz
        simp only [Nat.not_lt, Nat.le_zero] at hz
        rw [List.length_eq_zero] at hz
        subst hz
        simp at this
      rcases ih (some e0) span.length k.length e h with ⟨h1, h2, h3⟩ | h4
      · have he : e0 = e := by injection h1
        subst he
        exact Or.inr ⟨(k, e0), List.mem_cons_self _ _, rfl, h2, h3,
          hbeat.1, hspan⟩
      · obtain ⟨kv, hkv, hrest⟩ := h4
        exact Or.inr ⟨kv, List.mem_cons_of_mem _ hkv, hrest⟩
    · rename_i hnbeat
      rw [show (if containsStr span k = true ∧ bn * k.length <
          span.length * bd then scanBest span rest
            (some e0, span.length, k.length)
          else scanBest span rest (bm, bn, bd)) = scanBest span rest
            (bm, bn, bd) from if_neg hnbeat]
      rcases ih bm bn bd e h with h1 | h4
      · exact Or.inl h1
      · obtain ⟨kv, hkv, hrest⟩ := h4
        exact Or.inr ⟨kv, List.mem_cons_of_mem _ hkv, hrest⟩

theorem scanBest_none_iff (span : Str) :
    ∀ (l : List (Str × TEIElement)),
      ((scanBest span l (none, 0, 1)).1 = none ↔
        (span = [] ∨ ∀ kv ∈ l, containsStr span kv.1 = false)) := by
  intro l
  induction l with
  | nil => simp [scanBest]
  | cons kv0 rest ih =>
    obtain ⟨k, e0⟩ := kv0
    simp only [scanBest]
    by_cases hbeat : containsStr span k = true ∧ 0 * k.length <
        span.length * 1
    · rw [if_pos hbeat]
      have hsome := scanBest_isSome span rest (some e0) span.length k.length rfl
      constructor
      · intro h
        rw [h] at hsome
        cases hsome
      · rintro (rfl | hall)
        · have := hbeat.2
          simp at this
        · have := hall (k, e0) (List.mem_cons_self _ _)
          rw [hbeat.1] at this
          cases this
    · rw [if_neg hbeat]
      rw [ih]
      constructor
      · rintro (rfl | hall)
        · exact Or.inl rfl
        · by_cases hsp : span = []
          · exact Or.inl hsp
          · refine Or.inr ?_
            intro kv hkv
            rcases List.mem_cons.mp hkv with rfl | hm
            · rw [not_and] at hbeat
              by_cases hck : containsStr span k = true
              · exfalso
                apply hbeat hck
                have hl : 0 < span.length := List.length_pos.mpr hsp
                simpa using hl
              · simpa using hck
            · exact hall kv hm
      · rintro (rfl | hall)
        · exact Or.inl rfl
        · exact Or.inr (fun kv hkv => hall kv (List.mem_cons_of_mem _ hkv))

/-- C7 counterexample: two units with identical text `abc` but different
attributes; the lookup keeps only the last, so the scan for span `ab`
returns the second unit in document order, not the first. -/
theorem duplicate_text_scan_returns_last :
    buildTextLookup [unitN1, unitN2] = [(lit "abc", unitN2)] ∧
      findBestMatchingElement (lit "ab") (buildTextLookup [unitN1, unitN2])
        = some unitN2 ∧
      unitN1 ≠ unitN2 := by
  refine ⟨by decide, by decide, by decide⟩

/-- C7 amended: `_find_best_matching_element` over a text lookup (in which a
later unit with duplicate text has overwritten an earlier one) returns the
stored unit on exact match; otherwise it returns a stored unit whose text
contains the span and has minimal length among the containing texts
(maximal coverage ratio); it returns none exactly when the span is empty or
no stored text contains it. -/
theorem find_best_matching_element_spec (span : Str)
    (lookup : List (Str × TEIElement))
    (hkeys : ∀ kv ∈ lookup, kv.1 ≠ ([] : Str)) :
    (∀ e, assocGet span lookup = some e →
      findBestMatchingElement span lookup = some e) ∧
    (assocGet span lookup = none →
      ((findBestMatchingElement span lookup = none ↔
        (span = [] ∨ ∀ kv ∈ lookup, containsStr span kv.1 = false)) ∧
       (∀ e, findBestMatchingElement span lookup = some e →
        ∃ kv, kv ∈ lookup ∧ kv.2 = e ∧ containsStr span kv.1 = true ∧
          ∀ kv' ∈ lookup, containsStr span kv'.1 = true →
            kv.1.length ≤ kv'.1.length))) := by
  constructor
  · intro e h
    rw [findBestMatchingElement, h]
  · intro hnone
    constructor
    · rw [findBestMatchingElement, hnone]
      exact scanBest_none_iff span lookup
    · intro e h
      rw [findBestMatchingElement, hnone] at h
      rcases scanBest_origin span lookup none 0 1 e h with ⟨h1, _⟩ | h4
      · cases h1
      · obtain ⟨kv, hkv, hkve, hd, hn, hc, hspan⟩ := h4
        refine ⟨kv, hkv, hkve, hc, ?_⟩
        intro kv' hkv' hc'
        have hb := scanBest_beats_entries span lookup none 0 1 hkeys
          Nat.one_pos kv' hkv' hc'
        rw [hd, hn] at hb
        -- hb : span.length * kv.1.length ≤ span.length * kv'.1.length
        exact Nat.le_of_mul_le_mul_left hb hspan

/-- C7 witness: exact match on the concrete duplicate-text lookup. -/
theorem find_best_matching_element_spec_witness :
    findBestMatchingElement (lit "abc") (buildTextLookup [unitN1, unitN2])
      = some unitN2 :=
  (find_best_matching_element_spec (lit "abc")
    (buildTextLookup [unitN1, unitN2]) (by decide)).1 unitN2 (by decide)

/-! ### Claim C4: content preservation of the seg rebuild -/
theorem removeWs_append (a b : Str) :
    removeWs (a ++ b) = removeWs a ++ removeWs b := by
  simp [removeWs, List.filter_append]

theorem removeWs_dropWhile (s : Str) :
    removeWs (s.dropWhile isWs) = removeWs s := by
  induction s with
  | nil => rfl
  | cons c cs ih =>
    by_cases hc : isWs c = true
    · rw [List.dropWhile_cons_of_pos hc, ih]
      simp [removeWs, hc]
    · rw [List.dropWhile_cons_of_neg (by simp [hc])]

theorem removeWs_stripEnd (s : Str) : removeWs (stripEnd s) = removeWs s := by
  induction s with
  | nil => rfl
  | cons c cs ih =>
    simp only [stripEnd]
    cases h : stripEnd cs with
    | nil =>
      rw [h] at ih
      have hcs : removeWs cs = [] := by rw [← ih]; rfl
      by_cases hw : isWs c = true
      · rw [if_pos hw]
        show removeWs [] = removeWs (c :: cs)
        simp [removeWs, List.filter_cons, hw, hcs] at *
        exact hcs
      · rw [if_neg (by simp [hw])]
        show removeWs [c] = removeWs (c :: cs)
        simp only [removeWs, List.filter_cons] at hcs ⊢
        rw [hcs]
        simp
    | cons e r =>
      rw [h] at ih
      show removeWs (c :: e :: r) = removeWs (c :: cs)
      simp only [removeWs, List.filter_cons] at ih ⊢
      rw [ih]

theorem removeWs_stripWs (s : Str) : removeWs (stripWs s) = removeWs s := by
  rw [stripWs, stripStart, removeWs_stripEnd, removeWs_dropWhile]

theorem removeWs_collapseAux (p : Char → Bool)
    (hp : ∀ c, p c = true → isWs c = true) :
    ∀ (s : Str) (prev : Bool), removeWs (collapseAux p prev s) = removeWs s := by
  intro s
  have hsp : isWs ' ' = true := by decide
  induction s with
  | nil => intro prev; cases prev <;> rfl
  | cons c cs ih =>
    intro prev
    cases prev with
    | true =>
      simp only [collapseAux]
      by_cases hc : p c = true
      · rw [if_pos hc, ih true]
        have hwc := hp c hc
        simp [removeWs, List.filter_cons, hwc]
      · rw [if_neg (by simp [hc])]
        simp only [removeWs, List.filter_cons] at ih ⊢
        rw [ih false]
    | false =>
      simp only [collapseAux]
      by_cases hc : p c = true
      · rw [if_pos hc]
        have hwc := hp c hc
        simp only [removeWs, List.filter_cons, hsp, hwc, Bool.not_true,
          Bool.false_eq_true, if_false]
        exact ih true
      · rw [if_neg (by simp [hc])]
        simp only [removeWs, List.filter_cons] at ih ⊢
        rw [ih false]

theorem removeWs_cleanText (s : Str) : removeWs (cleanText s) = removeWs s := by
  by_cases h : s = []
  · rw [h]; rfl
  · rw [cleanText, if_neg h, removeWs_stripWs]
    rw [show collapse isWs (collapse isNl s) =
      collapseAux isWs false (collapse isNl s) from rfl]
    rw [removeWs_collapseAux isWs (fun c hc => hc) _ false]
    rw [show collapse isNl s = collapseAux isNl false s from rfl]
    rw [removeWs_collapseAux isNl
      (fun c hc => by
        simp only [isNl, Bool.or_eq_true] at hc
        simp only [isWs, Bool.or_eq_true]
        rcases hc with h' | h' <;> simp [h']) _ false]

theorem removeWs_joinSp : ∀ (l : List Str),
    removeWs (joinSp l) = (l.map removeWs).flatten := by
  intro l
  induction l with
  | nil => rfl
  | cons x r ih =>
    cases r with
    | nil => simp [joinSp]
    | cons y r' =>
      rw [joinSp, removeWs_append]
      rw [show removeWs (' ' :: joinSp (y :: r')) = removeWs (joinSp (y :: r'))
        from by simp [removeWs, List.filter_cons,
          (by decide : isWs ' ' = true)]]
      rw [ih]
      simp

mutual
theorem removeWs_getElementText : ∀ (e : XTree),
    removeWs (getElementText e) = removeWs (rawContent e)
  | .node t a x c tl => by
    show removeWs (cleanText (stripWs (joinSp
      ((if x ≠ [] then [stripWs x] else []) ++ childTexts c)))) =
      removeWs (x ++ rawKids c)
    rw [removeWs_cleanText, removeWs_stripWs, removeWs_joinSp,
      removeWs_append, List.map_append, List.flatten_append]
    rw [removeWs_childTexts c]
    congr 1
    by_cases hx : x = []
    · subst hx; simp; rfl
    · rw [if_pos hx]
      simp [removeWs_stripWs]

theorem removeWs_childTexts : ∀ (l : List XTree),
    (List.map removeWs (childTexts l)).flatten = removeWs (rawKids l)
  | [] => by simp [childTexts, rawKids, removeWs]
  | e :: r => by
    show (List.map removeWs
      (((if getElementText e ≠ [] then [getElementText e] else []) ++
        (if e.tail ≠ [] then [stripWs e.tail] else [])) ++ childTexts r)).flatten
      = removeWs (rawContent e ++ e.tail ++ rawKids r)
    rw [List.map_append, List.flatten_append, List.map_append,
      List.flatten_append, removeWs_childTexts r, removeWs_append,
      removeWs_append]
    have h1 : (List.map removeWs
        (if getElementText e ≠ [] then [getElementText e] else [])).flatten =
        removeWs (rawContent e) := by
      by_cases hc : getElementText e = []
      · rw [if_neg (by simp [hc])]
        rw [← removeWs_getElementText e, hc]
        rfl
      · rw [if_pos hc]
        simp [removeWs_getElementText e]
    have h2 : (List.map removeWs
        (if e.tail ≠ [] then [stripWs e.tail] else [])).flatten =
        removeWs e.tail := by
      by_cases ht : e.tail = []
      · rw [if_neg (by simp [ht]), ht]
        rfl
      · rw [if_pos ht]
        simp [removeWs_stripWs]
    rw [h1, h2]
end

theorem rawKids_append (a b : List XTree) :
    rawKids (a ++ b) = rawKids a ++ rawKids b := by
  induction a with
  | nil => rfl
  | cons e r ih =>
    show rawContent e ++ e.tail ++ rawKids (r ++ b) = _
    rw [ih]
    show _ = rawContent e ++ e.tail ++ rawKids r ++ rawKids b
    simp [List.append_assoc]

theorem rawKids_addLastTail (x : Str) :
    ∀ (ks : List XTree), ks ≠ [] →
      rawKids (addLastTail ks x) = rawKids ks ++ x := by
  intro ks
  induction ks with
  | nil => intro h; cases h rfl
  | cons e r ih =>
    intro _
    cases r with
    | nil =>
      obtain ⟨t, a, te, c, tl⟩ := e
      show rawContent (.node t a te c (tl ++ x)) ++ (tl ++ x) ++ rawKids [] =
        rawContent (.node t a te c tl) ++ tl ++ rawKids [] ++ x
      show te ++ rawKids c ++ (tl ++ x) ++ [] = te ++ rawKids c ++ tl ++ [] ++ x
      simp [List.append_assoc]
    | cons e2 r2 =>
      obtain ⟨t1, a1, te1, c1, tl1⟩ := e
      show rawContent (.node t1 a1 te1 c1 tl1) ++ tl1 ++
        rawKids (addLastTail (e2 :: r2) x) = _
      rw [ih (by simp)]
      show _ = rawContent (.node t1 a1 te1 c1 tl1) ++ tl1 ++
        (rawKids (e2 :: r2)) ++ x
      simp [List.append_assoc]

theorem rawKids_setLastTail (x : Str) :
    ∀ (ks : List XTree), ks ≠ [] → lastTail ks = [] →
      rawKids (setLastTail ks x) = rawKids ks ++ x := by
  intro ks
  induction ks with
  | nil => intro h; cases h rfl
  | cons e r ih =>
    intro _ hlt
    cases r with
    | nil =>
      obtain ⟨t, a, te, c, tl⟩ := e
      have htl : tl = [] := hlt
      subst htl
      show rawContent (.node t a te c x) ++ x ++ rawKids [] =
        rawContent (.node t a te c []) ++ [] ++ rawKids [] ++ x
      show te ++ rawKids c ++ x ++ [] = te ++ rawKids c ++ [] ++ [] ++ x
      simp [List.append_assoc]
    | cons e2 r2 =>
      have hlt2 : lastTail (e2 :: r2) = [] := hlt
      obtain ⟨t1, a1, te1, c1, tl1⟩ := e
      show rawContent (.node t1 a1 te1 c1 tl1) ++ tl1 ++
        rawKids (setLastTail (e2 :: r2) x) = _
      rw [ih (by simp) hlt2]
      show _ = rawContent (.node t1 a1 te1 c1 tl1) ++ tl1 ++
        (rawKids (e2 :: r2)) ++ x
      simp [List.append_assoc]

theorem lastTail_append_single (ks : List XTree) (e : XTree) :
    lastTail (ks ++ [e]) = e.tail := by
  induction ks with
  | nil => rfl
  | cons e2 r ih =>
    cases r with
    | nil => rfl
    | cons e3 r3 => exact ih

theorem segLoop_kids_ne :
    ∀ (sents : List (Str × Nat)) (i : Nat) (txt : Str) (kids : List XTree)
      (rem : Str), kids ≠ [] → (segLoop sents i txt kids rem).2.1 ≠ [] := by
  intro sents
  induction sents with
  | nil => intro i txt kids rem h; exact h
  | cons su rest ih =>
    intro i txt kids rem h
    obtain ⟨s, u⟩ := su
    simp only [segLoop]
    cases hf : findIdx s rem with
    | none => exact ih (i + 1) txt kids rem h
    | some start => exact ih (i + 1) _ _ _ (by simp)

theorem segLoop_lastTail :
    ∀ (sents : List (Str × Nat)) (i : Nat) (txt : Str) (kids : List XTree)
      (rem : Str),
      (segLoop sents i txt kids rem).2.1 = kids ∨
        lastTail (segLoop sents i txt kids rem).2.1 = [] := by
  intro sents
  induction sents with
  | nil => intro i txt kids rem; exact Or.inl rfl
  | cons su rest ih =>
    intro i txt kids rem
    obtain ⟨s, u⟩ := su
    simp only [segLoop]
    cases hf : findIdx s rem with
    | none => exact ih (i + 1) txt kids rem
    | some start =>
      rcases ih (i + 1)
        (if 0 < start ∧ stripWs (rem.take start) ≠ [] then
          if i = 0 then (txt ++ stripWs (rem.take start) ++ [' '], kids)
          else if kids.isEmpty then (txt, kids)
          else (txt, addLastTail kids (stripWs (rem.take start) ++ [' ']))
         else (txt, kids)).1
        ((if 0 < start ∧ stripWs (rem.take start) ≠ [] then
          if i = 0 then (txt ++ stripWs (rem.take start) ++ [' '], kids)
          else if kids.isEmpty then (txt, kids)
          else (txt, addLastTail kids (stripWs (rem.take start) ++ [' ']))
         else (txt, kids)).2 ++ [segNode s u])
        (rem.drop (start + s.length)) with heq | hlt
      · rw [heq]
        exact Or.inr (lastTail_append_single _ _)
      · exact Or.inr hlt

theorem removeWs_space : removeWs [' '] = [] := by decide

theorem removeWs_take_of_nobefore {rem : Str} {start : Nat}
    (h : ¬(0 < start ∧ stripWs (rem.take start) ≠ [])) :
    removeWs (rem.take start) = [] := by
  rw [not_and_or] at h
  rcases h with h | h
  · have : start = 0 := by omega
    subst this
    rfl
  · rw [not_not] at h
    rw [← removeWs_stripWs, h]
    rfl

theorem segLoop_chars :
    ∀ (sents : List (Str × Nat)) (i : Nat) (txt : Str) (kids : List XTree)
      (rem : Str), kids ≠ [] → 0 < i →
      removeWs ((segLoop sents i txt kids rem).1 ++
        rawKids (segLoop sents i txt kids rem).2.1 ++
        (segLoop sents i txt kids rem).2.2) =
      removeWs (txt ++ rawKids kids ++ rem) := by
  intro sents
  induction sents with
  | nil => intro i txt kids rem _ _; rfl
  | cons su rest ih =>
    intro i txt kids rem hk hi
    obtain ⟨s, u⟩ := su
    simp only [segLoop]
    split
    · exact ih (i + 1) txt kids rem hk (Nat.succ_pos i)
    · rename_i start hf
      have hdec := findIdx_decomp hf
      have hii : ¬(i = 0) := by omega
      have hrem : removeWs rem =
          removeWs (rem.take start) ++ removeWs s ++
            removeWs (rem.drop (start + s.length)) := by
        conv_lhs => rw [hdec]
        rw [removeWs_append, removeWs_append]
      have hnil : removeWs [] = [] := rfl
      have hseg : rawKids [segNode s u] = s ++ [] := by
        show rawContent (segNode s u) ++ (segNode s u).tail ++ rawKids [] = _
        show s ++ rawKids [] ++ [] ++ rawKids [] = _
        simp [rawKids]
      by_cases hb : 0 < start ∧ stripWs (rem.take start) ≠ []
      · rw [if_pos hb, if_neg hii]
        have hke : kids.isEmpty = false := by
          cases kids with
          | nil => cases hk rfl
          | cons a b => rfl
        rw [if_neg (by simp [hke])]
        rw [ih (i + 1) _ _ _ (by simp) (Nat.succ_pos i)]
        rw [rawKids_append, rawKids_addLastTail _ kids hk, hseg]
        simp only [removeWs_append, List.append_assoc, List.append_nil,
          removeWs_stripWs, removeWs_space, hrem, hnil]
        simp [List.append_assoc]
      · rw [if_neg hb]
        rw [ih (i + 1) _ _ _ (by simp) (Nat.succ_pos i)]
        rw [rawKids_append, hseg]
        simp only [removeWs_append, List.append_assoc, List.append_nil,
          hrem, hnil, removeWs_take_of_nobefore hb]
        simp [List.append_assoc]

theorem segSentences_contains (ms : List MapEntry) (ft : Str) :
    ∀ x ∈ segSentences ms ft, containsStr x.1 ft = true := by
  intro x hx
  simp only [segSentences, List.mem_flatMap, List.mem_filterMap] at hx
  obtain ⟨m, _, s, _, hf⟩ := hx
  by_cases hc : stripWs s ≠ [] ∧ containsStr (stripWs s) ft = true
  · rw [if_pos hc] at hf
    cases hf
    exact hc.2
  · rw [if_neg hc] at hf
    cases hf

theorem createSegTags_chars (e : XTree) (ms : List MapEntry) (fullText : Str)
    (hft : removeWs fullText = removeWs (rawContent e)) :
    removeWs (rawContent (createSegTagsForSentences e ms fullText)) =
      removeWs (rawContent e) := by
  obtain ⟨t, a, x, c, tl⟩ := e
  simp only [createSegTagsForSentences]
  split
  · rename_i hs
    cases ms with
    | nil => rfl
    | cons m mr => rfl
  · rename_i s0 rest hs
    obtain ⟨s, u⟩ := s0
    have hc0 : containsStr s fullText = true := by
      have := segSentences_contains ms fullText (s, u)
        (by rw [hs]; exact List.mem_cons_self _ _)
      exact this
    obtain ⟨start, hf⟩ : ∃ st, findIdx s fullText = some st := by
      rw [containsStr] at hc0
      exact Option.isSome_iff_exists.mp hc0
    have hdec := findIdx_decomp hf
    have hnil : removeWs ([] : Str) = [] := rfl
    have hrem : removeWs fullText =
        removeWs (fullText.take start) ++ removeWs s ++
          removeWs (fullText.drop (start + s.length)) := by
      conv_lhs => rw [hdec]
      rw [removeWs_append, removeWs_append]
    have hseg1 : rawKids [segNode s u] = s ++ [] := by
      show rawContent (segNode s u) ++ (segNode s u).tail ++ rawKids [] = _
      show s ++ rawKids [] ++ [] ++ rawKids [] = _
      simp [rawKids]
    -- the first loop iteration (i = 0) always finds its sentence
    have hstep : ∀ (txtv : Str),
        (if 0 < start ∧ stripWs (fullText.take start) ≠ [] then
            ([] ++ stripWs (fullText.take start) ++ [' '], ([] : List XTree))
          else ([], [])) = (txtv, ([] : List XTree)) →
        segLoop ((s, u) :: rest) 0 [] [] fullText =
          segLoop rest 1 txtv [segNode s u]
            (fullText.drop (start + s.length)) := by
      intro txtv htxt
      simp only [segLoop, hf]
      by_cases hb : 0 < start ∧ stripWs (fullText.take start) ≠ []
      · rw [if_pos hb] at htxt
        cases htxt
        simp [hb]
      · rw [if_neg hb] at htxt
        cases htxt
        simp [hb]
    set txtv : Str :=
      (if 0 < start ∧ stripWs (fullText.take start) ≠ [] then
          ([] ++ stripWs (fullText.take start) ++ [' '], ([] : List XTree))
        else ([], [])).1 with htxtv
    have hsv := hstep txtv (by
      by_cases hb : 0 < start ∧ stripWs (fullText.take start) ≠ [] <;>
        simp [htxtv, hb])
    rw [hsv]
    have hT0 : removeWs txtv = removeWs (fullText.take start) := by
      by_cases hb : 0 < start ∧ stripWs (fullText.take start) ≠ []
      · rw [htxtv, if_pos hb]
        simp only [List.nil_append, removeWs_append, removeWs_stripWs,
          removeWs_space, List.append_nil]
      · rw [htxtv, if_neg hb]
        rw [removeWs_take_of_nobefore hb]
        rfl
    have hmain := segLoop_chars rest 1 txtv [segNode s u]
      (fullText.drop (start + s.length)) (by simp) Nat.one_pos
    have hne := segLoop_kids_ne rest 1 txtv [segNode s u]
      (fullText.drop (start + s.length)) (by simp)
    have hlast : lastTail (segLoop rest 1 txtv [segNode s u]
        (fullText.drop (start + s.length))).2.1 = [] := by
      rcases segLoop_lastTail rest 1 txtv [segNode s u]
        (fullText.drop (start + s.length)) with heq | h
      · rw [heq]; rfl
      · exact h
    have htot : removeWs ((segLoop rest 1 txtv [segNode s u]
          (fullText.drop (start + s.length))).1 ++
        rawKids (segLoop rest 1 txtv [segNode s u]
          (fullText.drop (start + s.length))).2.1 ++
        (segLoop rest 1 txtv [segNode s u]
          (fullText.drop (start + s.length))).2.2) = removeWs fullText := by
      rw [hmain, hrem]
      rw [removeWs_append, removeWs_append, hT0, hseg1]
      rw [removeWs_append, hnil]
      simp [List.append_assoc]
    have hft2 : removeWs fullText = removeWs (x ++ rawKids c) := hft
    set r := segLoop rest 1 txtv [segNode s u]
      (fullText.drop (start + s.length)) with hr
    by_cases hrem2 : stripWs r.2.2 ≠ []
    · rw [if_pos hrem2]
      have hie : r.2.1.isEmpty = false := by
        cases hkk : r.2.1 with
        | nil => cases hne hkk
        | cons a2 b2 => rfl
      rw [hie]
      simp only [Bool.false_eq_true, if_false]
      show removeWs (r.1 ++ rawKids (setLastTail r.2.1 (' ' :: stripWs r.2.2)))
        = removeWs (x ++ rawKids c)
      rw [rawKids_setLastTail _ r.2.1 hne hlast]
      rw [← hft2, ← htot]
      simp only [removeWs_append, List.append_assoc]
      rw [show removeWs (' ' :: stripWs r.2.2) = removeWs r.2.2 from by
        rw [show (' ' :: stripWs r.2.2 : Str) = [' '] ++ stripWs r.2.2 from rfl,
          removeWs_append, removeWs_space, removeWs_stripWs]
        simp]
    · rw [if_neg hrem2]
      show removeWs (r.1 ++ rawKids r.2.1) = removeWs (x ++ rawKids c)
      rw [← hft2, ← htot]
      rw [not_not] at hrem2
      have hd : removeWs r.2.2 = [] := by
        rw [← removeWs_stripWs, hrem2]
        rfl
      simp only [removeWs_append, List.append_assoc, hd]
      simp

/-- C4 counterexample: the paragraph `AB C` rebuilt around the aligned
sentence `B C` (whose occurrence starts mid-word) yields `A B C`: a space is
inserted inside the original word `AB`, so the whitespace-normalized text of
the rebuilt element differs from the original flattened text. -/
theorem seg_boundary_splits_word :
    stripWs (getElementText pABC) = lit "AB C" ∧
      cleanText (rawContent (createSegTagsForSentences pABC [entryBC]
        (lit "AB C"))) = lit "A B C" ∧
      cleanText (rawContent pABC) = lit "AB C" ∧
      lit "A B C" ≠ lit "AB C" := by
  refine ⟨by decide, by decide, by decide, by decide⟩

/-- C4 amended: the rebuilt content of a projected paragraph/heading
preserves every non-whitespace character of the original flattened text in
order (nothing is lost or reordered), but whitespace-normalized equality can
fail when a segment boundary splits a word, because the rebuild inserts a
space after the text preceding each seg. -/
theorem seg_rebuild_preserves_characters (e : XTree) (ms : List MapEntry) :
    removeWs (rawContent (createSegTagsForSentences e ms
      (stripWs (getElementText e)))) = removeWs (rawContent e) :=
  createSegTags_chars e ms _
    (by rw [removeWs_stripWs, removeWs_getElementText])

/-! ### Claim C5: structural preservation -/
theorem countTagList_append (tg : String) (a b : List XTree) :
    countTagList tg (a ++ b) = countTagList tg a + countTagList tg b := by
  induction a with
  | nil => simp [countTagList]
  | cons e r ih =>
    show countTag tg e + countTagList tg (r ++ b) = _
    rw [ih]
    show _ = countTag tg e + countTagList tg r + countTagList tg b
    omega

theorem okTreeList_mem :
    ∀ (l : List XTree), okTreeList l = true → ∀ e ∈ l, okTree e = true := by
  intro l
  induction l with
  | nil => intro _ e he; cases he
  | cons e0 r ih =>
    intro h e he
    have h' : okTree e0 = true ∧ okTreeList r = true := by
      have : (okTree e0 && okTreeList r) = true := h
      exact Bool.and_eq_true_iff.mp this
    rcases List.mem_cons.mp he with rfl | hm
    · exact h'.1
    · exact ih h'.2 e hm

theorem okTreeList_append :
    ∀ (a b : List XTree), okTreeList (a ++ b) = true ↔
      (okTreeList a = true ∧ okTreeList b = true) := by
  intro a b
  induction a with
  | nil => simp [okTreeList]
  | cons e r ih =>
    show (okTree e && okTreeList (r ++ b)) = true ↔
      ((okTree e && okTreeList r) = true ∧ _)
    rw [Bool.and_eq_true_iff, Bool.and_eq_true_iff, ih]
    tauto

/-- A node whose tag is `p`, `head` or `language` in an ok tree has no
structural elements among its strict descendants. -/
theorem okTree_inner_zero {t : String} {a : List (String × Str)} {x : Str}
    {c : List XTree} {tl : Str}
    (hok : okTree (.node t a x c tl) = true)
    (ht : t = "p" ∨ t = "head" ∨ t = "language") :
    countTagList "div" c = 0 ∧ countTagList "pb" c = 0 ∧
      countTagList "head" c = 0 ∧ okTreeList c = true := by
  have h : ((if t = "p" || t = "head" || t = "language" then
      innerStructCount c == 0 else true) && okTreeList c) = true := hok
  rw [Bool.and_eq_true_iff] at h
  have hcond : (t = "p" || t = "head" || t = "language") = true := by
    rcases ht with rfl | rfl | rfl <;> simp
  rw [if_pos hcond] at h
  have hz : innerStructCount c = 0 := by
    have h1 := h.1
    simpa using h1
  rw [innerStructCount] at hz
  exact ⟨by omega, by omega, by omega, h.2⟩

theorem okTree_children {t : String} {a : List (String × Str)} {x : Str}
    {c : List XTree} {tl : Str}
    (hok : okTree (.node t a x c tl) = true) : okTreeList c = true := by
  have h : ((if t = "p" || t = "head" || t = "language" then
      innerStructCount c == 0 else true) && okTreeList c) = true := hok
  rw [Bool.and_eq_true_iff] at h
  exact h.2

theorem countTagList_addLastTail (tg : String) (x : Str) :
    ∀ (ks : List XTree),
      countTagList tg (addLastTail ks x) = countTagList tg ks := by
  intro ks
  induction ks with
  | nil => rfl
  | cons e r ih =>
    cases r with
    | nil =>
      obtain ⟨t1, a1, te1, c1, tl1⟩ := e
      rfl
    | cons e2 r2 =>
      obtain ⟨t1, a1, te1, c1, tl1⟩ := e
      show countTag tg (.node t1 a1 te1 c1 tl1) +
        countTagList tg (addLastTail (e2 :: r2) x) = _
      rw [ih]
      rfl

theorem countTagList_setLastTail (tg : String) (x : Str) :
    ∀ (ks : List XTree),
      countTagList tg (setLastTail ks x) = countTagList tg ks := by
  intro ks
  induction ks with
  | nil => rfl
  | cons e r ih =>
    cases r with
    | nil =>
      obtain ⟨t1, a1, te1, c1, tl1⟩ := e
      rfl
    | cons e2 r2 =>
      obtain ⟨t1, a1, te1, c1, tl1⟩ := e
      show countTag tg (.node t1 a1 te1 c1 tl1) +
        countTagList tg (setLastTail (e2 :: r2) x) = _
      rw [ih]
      rfl

theorem okTreeList_addLastTail (x : Str) :
    ∀ (ks : List XTree), okTreeList (addLastTail ks x) = okTreeList ks := by
  intro ks
  induction ks with
  | nil => rfl
  | cons e r ih =>
    cases r with
    | nil =>
      obtain ⟨t1, a1, te1, c1, tl1⟩ := e
      rfl
    | cons e2 r2 =>
      obtain ⟨t1, a1, te1, c1, tl1⟩ := e
      show (okTree (.node t1 a1 te1 c1 tl1) &&
        okTreeList (addLastTail (e2 :: r2) x)) = _
      rw [ih]
      rfl

theorem okTreeList_setLastTail (x : Str) :
    ∀ (ks : List XTree), okTreeList (setLastTail ks x) = okTreeList ks := by
  intro ks
  induction ks with
  | nil => rfl
  | cons e r ih =>
    cases r with
    | nil =>
      obtain ⟨t1, a1, te1, c1, tl1⟩ := e
      rfl
    | cons e2 r2 =>
      obtain ⟨t1, a1, te1, c1, tl1⟩ := e
      show (okTree (.node t1 a1 te1 c1 tl1) &&
        okTreeList (setLastTail (e2 :: r2) x)) = _
      rw [ih]
      rfl

theorem structKidsOk_addLastTail (ks : List XTree) (x : Str) :
    structKidsOk ks (addLastTail ks x) :=
  ⟨countTagList_addLastTail _ _ _, countTagList_addLastTail _ _ _,
   countTagList_addLastTail _ _ _,
   fun h => by rw [okTreeList_addLastTail]; exact h⟩

theorem structKidsOk_setLastTail (ks : List XTree) (x : Str) :
    structKidsOk ks (setLastTail ks x) :=
  ⟨countTagList_setLastTail _ _ _, countTagList_setLastTail _ _ _,
   countTagList_setLastTail _ _ _,
   fun h => by rw [okTreeList_setLastTail]; exact h⟩

theorem structKidsOk_refl (ks : List XTree) : structKidsOk ks ks :=
  ⟨rfl, rfl, rfl, fun h => h⟩

theorem structKidsOk_trans {a b c : List XTree}
    (h1 : structKidsOk a b) (h2 : structKidsOk b c) : structKidsOk a c :=
  ⟨h2.1.trans h1.1, h2.2.1.trans h1.2.1, h2.2.2.1.trans h1.2.2.1,
   fun h => h2.2.2.2 (h1.2.2.2 h)⟩

theorem countTag_segNode (s : Str) (u : Nat) :
    countTag "div" (segNode s u) = 0 ∧ countTag "pb" (segNode s u) = 0 ∧
      countTag "head" (segNode s u) = 0 ∧ okTree (segNode s u) = true :=
  ⟨rfl, rfl, rfl, rfl⟩

theorem structKidsOk_append_seg (ks : List XTree) (s : Str) (u : Nat) :
    structKidsOk ks (ks ++ [segNode s u]) := by
  obtain ⟨h1, h2, h3, h4⟩ := countTag_segNode s u
  refine ⟨?_, ?_, ?_, ?_⟩
  · rw [countTagList_append]
    show _ + (countTag "div" (segNode s u) + countTagList "div" []) = _
    rw [h1]; rfl
  · rw [countTagList_append]
    show _ + (countTag "pb" (segNode s u) + countTagList "pb" []) = _
    rw [h2]; rfl
  · rw [countTagList_append]
    show _ + (countTag "head" (segNode s u) + countTagList "head" []) = _
    rw [h3]; rfl
  · intro h
    rw [okTreeList_append]
    refine ⟨h, ?_⟩
    show (okTree (segNode s u) && okTreeList []) = true
    rw [h4]; rfl

theorem segLoop_struct :
    ∀ (sents : List (Str × Nat)) (i : Nat) (txt : Str) (kids : List XTree)
      (rem : Str), structKidsOk kids (segLoop sents i txt kids rem).2.1 := by
  intro sents
  induction sents with
  | nil => intro i txt kids rem; exact structKidsOk_refl kids
  | cons su rest ih =>
    intro i txt kids rem
    obtain ⟨s, u⟩ := su
    simp only [segLoop]
    split
    · exact ih (i + 1) txt kids rem
    · rename_i start hf
      have hstep : structKidsOk kids
          ((if 0 < start ∧ stripWs (rem.take start) ≠ [] then
              if i = 0 then (txt ++ stripWs (rem.take start) ++ [' '], kids)
              else if kids.isEmpty then (txt, kids)
              else (txt, addLastTail kids (stripWs (rem.take start) ++ [' ']))
            else (txt, kids)).2) := by
        split
        · split
          · exact structKidsOk_refl kids
          · split
            · exact structKidsOk_refl kids
            · exact structKidsOk_addLastTail kids _
        · exact structKidsOk_refl kids
      exact structKidsOk_trans
        (structKidsOk_trans hstep (structKidsOk_append_seg _ s u))
        (ih (i + 1) _ _ _)

theorem okTree_of_kids (t : String) (a : List (String × Str)) (x : Str)
    (c : List XTree) (tl : Str)
    (hdiv : countTagList "div" c = 0) (hpb : countTagList "pb" c = 0)
    (hhead : countTagList "head" c = 0) (hkids : okTreeList c = true) :
    okTree (.node t a x c tl) = true := by
  show ((if t = "p" || t = "head" || t = "language" then
    innerStructCount c == 0 else true) && okTreeList c) = true
  rw [hkids, Bool.and_true]
  split
  · simp [innerStructCount, hdiv, hpb, hhead]
  · rfl

theorem createSegTags_struct (e : XTree) (ms : List MapEntry) (ft : Str)
    (htag : e.tag = "p" ∨ e.tag = "head") :
    nodeOkPres e (createSegTagsForSentences e ms ft) := by
  intro hok
  obtain ⟨t, a, x, c, tl⟩ := e
  have hinner := okTree_inner_zero hok
    (by rcases htag with h | h <;> [exact Or.inl h; exact Or.inr (Or.inl h)])
  obtain ⟨hdiv, hpb, hhead, hkids⟩ := hinner
  simp only [createSegTagsForSentences]
  split
  · rename_i hs
    cases ms with
    | nil => exact ⟨rfl, rfl, rfl, hok⟩
    | cons m mr => exact ⟨rfl, rfl, rfl, hok⟩
  · rename_i s0 rest hs
    have hsk := segLoop_struct (s0 :: rest) 0 [] [] ft
    obtain ⟨hd1, hp1, hh1, ho1⟩ := hsk
    have ho1' : okTreeList (segLoop (s0 :: rest) 0 [] [] ft).2.1 = true :=
      ho1 rfl
    set r := segLoop (s0 :: rest) 0 [] [] ft with hr
    split
    · split
      · -- no children in the rebuilt node
        refine ⟨?_, ?_, ?_, ?_⟩
        · show (if t = "div" then 1 else 0) + countTagList "div" [] = _
          show _ = (if t = "div" then 1 else 0) + countTagList "div" c
          rw [hdiv]; rfl
        · show (if t = "pb" then 1 else 0) + countTagList "pb" [] = _
          show _ = (if t = "pb" then 1 else 0) + countTagList "pb" c
          rw [hpb]; rfl
        · show (if t = "head" then 1 else 0) + countTagList "head" [] = _
          show _ = (if t = "head" then 1 else 0) + countTagList "head" c
          rw [hhead]; rfl
        · exact okTree_of_kids t [] _ [] tl rfl rfl rfl rfl
      · -- setLastTail on the loop's children
        have hd2 := countTagList_setLastTail "div" (' ' :: stripWs r.2.2) r.2.1
        have hp2 := countTagList_setLastTail "pb" (' ' :: stripWs r.2.2) r.2.1
        have hh2 := countTagList_setLastTail "head" (' ' :: stripWs r.2.2) r.2.1
        have ho2 := okTreeList_setLastTail (' ' :: stripWs r.2.2) r.2.1
        refine ⟨?_, ?_, ?_, ?_⟩
        · show (if t = "div" then 1 else 0) +
            countTagList "div" (setLastTail r.2.1 (' ' :: stripWs r.2.2)) = _
          show _ = (if t = "div" then 1 else 0) + countTagList "div" c
          rw [hd2, hd1, hdiv]; rfl
        · show (if t = "pb" then 1 else 0) +
            countTagList "pb" (setLastTail r.2.1 (' ' :: stripWs r.2.2)) = _
          show _ = (if t = "pb" then 1 else 0) + countTagList "pb" c
          rw [hp2, hp1, hpb]; rfl
        · show (if t = "head" then 1 else 0) +
            countTagList "head" (setLastTail r.2.1 (' ' :: stripWs r.2.2)) = _
          show _ = (if t = "head" then 1 else 0) + countTagList "head" c
          rw [hh2, hh1, hhead]; rfl
        · refine okTree_of_kids t [] _ _ tl ?_ ?_ ?_ ?_
          · rw [hd2, hd1]; rfl
          · rw [hp2, hp1]; rfl
          · rw [hh2, hh1]; rfl
          · rw [ho2]; exact ho1'
    · refine ⟨?_, ?_, ?_, ?_⟩
      · show (if t = "div" then 1 else 0) + countTagList "div" r.2.1 = _
        show _ = (if t = "div" then 1 else 0) + countTagList "div" c
        rw [hd1, hdiv]; rfl
      · show (if t = "pb" then 1 else 0) + countTagList "pb" r.2.1 = _
        show _ = (if t = "pb" then 1 else 0) + countTagList "pb" c
        rw [hp1, hpb]; rfl
      · show (if t = "head" then 1 else 0) + countTagList "head" r.2.1 = _
        show _ = (if t = "head" then 1 else 0) + countTagList "head" c
        rw [hh1, hhead]; rfl
      · refine okTree_of_kids t [] _ _ tl ?_ ?_ ?_ ho1'
        · rw [hd1]; rfl
        · rw [hp1]; rfl
        · rw [hh1]; rfl

theorem okTree_congr {t : String} {a : List (String × Str)} {x : Str}
    {c : List XTree} {tl : Str} {a' : List (String × Str)} {x' : Str}
    {c' : List XTree} {tl' : Str}
    (hok : okTree (.node t a x c tl) = true)
    (hd : countTagList "div" c' = countTagList "div" c)
    (hp : countTagList "pb" c' = countTagList "pb" c)
    (hh : countTagList "head" c' = countTagList "head" c)
    (ho : okTreeList c' = true) :
    okTree (.node t a' x' c' tl') = true := by
  show ((if t = "p" || t = "head" || t = "language" then
    innerStructCount c' == 0 else true) && okTreeList c') = true
  rw [ho, Bool.and_true]
  have hok' : ((if t = "p" || t = "head" || t = "language" then
      innerStructCount c == 0 else true) && okTreeList c) = true := hok
  rw [Bool.and_eq_true_iff] at hok'
  split
  · rename_i hc
    rw [if_pos hc] at hok'
    have hz : innerStructCount c = 0 := by
      have h1 := hok'.1
      simpa using h1
    have : innerStructCount c' = 0 := by
      rw [innerStructCount] at hz ⊢
      omega
    simp [this]
  · rfl

theorem isTextTag_cases {t : String} (h : isTextTag t = true) :
    t = "p" ∨ t = "head" := by
  rw [isTextTag, Bool.or_eq_true, decide_eq_true_eq, decide_eq_true_eq] at h
  exact h

theorem createSegTags_fallback_shape (t : String) (a : List (String × Str))
    (x : Str) (c : List XTree) (tl : Str) (ms : List MapEntry) (ft : Str)
    (hs : segSentences ms ft = []) :
    ∃ a', createSegTagsForSentences (.node t a x c tl) ms ft =
      .node t a' x c tl := by
  simp only [createSegTagsForSentences, hs]
  cases ms with
  | nil => exact ⟨a, rfl⟩
  | cons m mr => exact ⟨_, rfl⟩

mutual
theorem transformElem_struct (emap : List (Str × MapEntry)) :
    ∀ (e : XTree), nodeOkPres e (transformElem emap e)
  | .node t a x c tl => by
    intro hok
    have hkids := okTree_children hok
    simp only [transformElem]
    by_cases htt : isTextTag t = true
    · rw [if_pos htt]
      by_cases hne : getElementText (.node t a x c tl) ≠ [] ∧
          stripWs (getElementText (.node t a x c tl)) ≠ []
      · rw [if_pos hne]
        set cl := stripWs (getElementText (.node t a x c tl)) with hcl
        set ms := (emap.filter
          (fun kv => textsMatch cl kv.1 || containsStr kv.1 cl)).map (·.2)
          with hms
        by_cases hmne : ms ≠ []
        · rw [if_pos hmne]
          by_cases hsne : segSentences ms cl ≠ []
          · rw [if_pos hsne]
            exact createSegTags_struct (.node t a x c tl) ms cl
              (isTextTag_cases htt) hok
          · rw [if_neg hsne]
            rw [not_not] at hsne
            obtain ⟨a', ha'⟩ := createSegTags_fallback_shape t a x c tl ms cl
              hsne
            rw [ha']
            obtain ⟨ld, lp, lh, lo⟩ := transformList_struct emap c hkids
            exact ⟨by show (if t = "div" then 1 else 0) + _ = _; rw [ld]; rfl,
              by show (if t = "pb" then 1 else 0) + _ = _; rw [lp]; rfl,
              by show (if t = "head" then 1 else 0) + _ = _; rw [lh]; rfl,
              okTree_congr hok ld lp lh lo⟩
        · rw [if_neg hmne]
          obtain ⟨ld, lp, lh, lo⟩ := transformList_struct emap c hkids
          exact ⟨by show (if t = "div" then 1 else 0) + _ = _; rw [ld]; rfl,
            by show (if t = "pb" then 1 else 0) + _ = _; rw [lp]; rfl,
            by show (if t = "head" then 1 else 0) + _ = _; rw [lh]; rfl,
            okTree_congr hok ld lp lh lo⟩
      · rw [if_neg hne]
        obtain ⟨ld, lp, lh, lo⟩ := transformList_struct emap c hkids
        exact ⟨by show (if t = "div" then 1 else 0) + _ = _; rw [ld]; rfl,
          by show (if t = "pb" then 1 else 0) + _ = _; rw [lp]; rfl,
          by show (if t = "head" then 1 else 0) + _ = _; rw [lh]; rfl,
          okTree_congr hok ld lp lh lo⟩
    · rw [if_neg htt]
      obtain ⟨ld, lp, lh, lo⟩ := transformList_struct emap c hkids
      exact ⟨by show (if t = "div" then 1 else 0) + _ = _; rw [ld]; rfl,
        by show (if t = "pb" then 1 else 0) + _ = _; rw [lp]; rfl,
        by show (if t = "head" then 1 else 0) + _ = _; rw [lh]; rfl,
        okTree_congr hok ld lp lh lo⟩

theorem transformList_struct (emap : List (Str × MapEntry)) :
    ∀ (l : List XTree), listOkPres l (transformList emap l)
  | [] => fun _ => ⟨rfl, rfl, rfl, rfl⟩
  | e :: r => by
    intro hok
    have hok' : okTree e = true ∧ okTreeList r = true :=
      Bool.and_eq_true_iff.mp hok
    obtain ⟨ed, ep, eh, eo⟩ := transformElem_struct emap e hok'.1
    obtain ⟨ld, lp, lh, lo⟩ := transformList_struct emap r hok'.2
    refine ⟨?_, ?_, ?_, ?_⟩
    · show countTag "div" (transformElem emap e) +
        countTagList "div" (transformList emap r) = _
      rw [ed, ld]; rfl
    · show countTag "pb" (transformElem emap e) +
        countTagList "pb" (transformList emap r) = _
      rw [ep, lp]; rfl
    · show countTag "head" (transformElem emap e) +
        countTagList "head" (transformList emap r) = _
      rw [eh, lh]; rfl
    · show (okTree (transformElem emap e) &&
        okTreeList (transformList emap r)) = true
      rw [eo, lo]
      rfl
end

mutual
theorem transformFb_struct (am : EnhancedAlignmentMap) :
    ∀ (e : XTree), nodeOkPres e (transformFb am e)
  | .node t a x c tl => by
    intro hok
    have hkids := okTree_children hok
    simp only [transformFb]
    by_cases htt : isTextTag t = true
    · rw [if_pos htt]
      by_cases hne : getElementText (.node t a x c tl) ≠ [] ∧
          stripWs (getElementText (.node t a x c tl)) ∈ fallbackKeys
      · rw [if_pos hne]
        exact createSegTags_struct (.node t a x c tl) _ _
          (isTextTag_cases htt) hok
      · rw [if_neg hne]
        obtain ⟨ld, lp, lh, lo⟩ := transformFbList_struct am c hkids
        exact ⟨by show (if t = "div" then 1 else 0) + _ = _; rw [ld]; rfl,
          by show (if t = "pb" then 1 else 0) + _ = _; rw [lp]; rfl,
          by show (if t = "head" then 1 else 0) + _ = _; rw [lh]; rfl,
          okTree_congr hok ld lp lh lo⟩
    · rw [if_neg htt]
      obtain ⟨ld, lp, lh, lo⟩ := transformFbList_struct am c hkids
      exact ⟨by show (if t = "div" then 1 else 0) + _ = _; rw [ld]; rfl,
        by show (if t = "pb" then 1 else 0) + _ = _; rw [lp]; rfl,
        by show (if t = "head" then 1 else 0) + _ = _; rw [lh]; rfl,
        okTree_congr hok ld lp lh lo⟩

theorem transformFbList_struct (am : EnhancedAlignmentMap) :
    ∀ (l : List XTree), listOkPres l (transformFbList am l)
  | [] => fun _ => ⟨rfl, rfl, rfl, rfl⟩
  | e :: r => by
    intro hok
    have hok' : okTree e = true ∧ okTreeList r = true :=
      Bool.and_eq_true_iff.mp hok
    obtain ⟨ed, ep, eh, eo⟩ := transformFb_struct am e hok'.1
    obtain ⟨ld, lp, lh, lo⟩ := transformFbList_struct am r hok'.2
    refine ⟨?_, ?_, ?_, ?_⟩
    · show countTag "div" (transformFb am e) +
        countTagList "div" (transformFbList am r) = _
      rw [ed, ld]; rfl
    · show countTag "pb" (transformFb am e) +
        countTagList "pb" (transformFbList am r) = _
      rw [ep, lp]; rfl
    · show countTag "head" (transformFb am e) +
        countTagList "head" (transformFbList am r) = _
      rw [eh, lh]; rfl
    · show (okTree (transformFb am e) &&
        okTreeList (transformFbList am r)) = true
      rw [eo, lo]
      rfl
end

theorem mapFirstDesc_shape (p : XTree → Bool) (f : XTree → XTree)
    (t : String) (a : List (String × Str)) (x : Str) (c : List XTree)
    (tl : Str) :
    mapFirstDesc p f (.node t a x c tl) =
      (.node t a x (mapFirstDescList p f c).1 tl,
        (mapFirstDescList p f c).2) := by
  simp only [mapFirstDesc]

mutual
theorem mapFirstDesc_struct (p : XTree → Bool) (f : XTree → XTree)
    (hf : ∀ y, p y = true → nodeOkPres y (f y)) :
    ∀ (e : XTree), nodeOkPres e ((mapFirstDesc p f e).1)
  | .node t a x c tl => by
    intro hok
    have hkids := okTree_children hok
    obtain ⟨ld, lp, lh, lo⟩ := mapFirstDescList_struct p f hf c hkids
    rw [mapFirstDesc_shape]
    exact ⟨by show (if t = "div" then 1 else 0) + _ = _; rw [ld]; rfl,
      by show (if t = "pb" then 1 else 0) + _ = _; rw [lp]; rfl,
      by show (if t = "head" then 1 else 0) + _ = _; rw [lh]; rfl,
      okTree_congr hok ld lp lh lo⟩

theorem mapFirstDescList_struct (p : XTree → Bool) (f : XTree → XTree)
    (hf : ∀ y, p y = true → nodeOkPres y (f y)) :
    ∀ (l : List XTree), listOkPres l ((mapFirstDescList p f l).1)
  | [] => fun _ => ⟨rfl, rfl, rfl, rfl⟩
  | e :: r => by
    intro hok
    have hok' : okTree e = true ∧ okTreeList r = true :=
      Bool.and_eq_true_iff.mp hok
    simp only [mapFirstDescList]
    by_cases hp : p e = true
    · rw [if_pos hp]
      obtain ⟨ed, ep, eh, eo⟩ := hf e hp hok'.1
      refine ⟨?_, ?_, ?_, ?_⟩
      · show countTag "div" (f e) + countTagList "div" r = _
        rw [ed]; rfl
      · show countTag "pb" (f e) + countTagList "pb" r = _
        rw [ep]; rfl
      · show countTag "head" (f e) + countTagList "head" r = _
        rw [eh]; rfl
      · show (okTree (f e) && okTreeList r) = true
        rw [eo, hok'.2]
        rfl
    · rw [if_neg hp]
      obtain ⟨ed, ep, eh, eo⟩ := mapFirstDesc_struct p f hf e hok'.1
      obtain ⟨ld, lp, lh, lo⟩ := mapFirstDescList_struct p f hf r hok'.2
      by_cases hfd : (mapFirstDesc p f e).2 = true
      · rw [show (mapFirstDesc p f e) = ((mapFirstDesc p f e).1, true) from by
          rw [← hfd]]
        simp only [if_true]
        refine ⟨?_, ?_, ?_, ?_⟩
        · show countTag "div" (mapFirstDesc p f e).1 + countTagList "div" r = _
          rw [ed]; rfl
        · show countTag "pb" (mapFirstDesc p f e).1 + countTagList "pb" r = _
          rw [ep]; rfl
        · show countTag "head" (mapFirstDesc p f e).1 +
            countTagList "head" r = _
          rw [eh]; rfl
        · show (okTree (mapFirstDesc p f e).1 && okTreeList r) = true
          rw [eo, hok'.2]
          rfl
      · have hfd' : (mapFirstDesc p f e).2 = false := by
          cases hx : (mapFirstDesc p f e).2
          · rfl
          · cases hfd hx
        rw [show (mapFirstDesc p f e) = ((mapFirstDesc p f e).1, false) from by
          rw [← hfd']]
        simp only [Bool.false_eq_true, if_false]
        refine ⟨?_, ?_, ?_, ?_⟩
        · show countTag "div" (mapFirstDesc p f e).1 +
            countTagList "div" (mapFirstDescList p f r).1 = _
          rw [ed, ld]; rfl
        · show countTag "pb" (mapFirstDesc p f e).1 +
            countTagList "pb" (mapFirstDescList p f r).1 = _
          rw [ep, lp]; rfl
        · show countTag "head" (mapFirstDesc p f e).1 +
            countTagList "head" (mapFirstDescList p f r).1 = _
          rw [eh, lh]; rfl
        · show (okTree (mapFirstDesc p f e).1 &&
            okTreeList (mapFirstDescList p f r).1) = true
          rw [eo, lo]
          rfl
end

theorem countTag_language_zero (e : XTree) (hok : okTree e = true)
    (ht : e.tag = "language") :
    countTag "div" e = 0 ∧ countTag "pb" e = 0 ∧ countTag "head" e = 0 := by
  obtain ⟨t, a, x, c, tl⟩ := e
  have ht' : t = "language" := ht
  subst ht'
  obtain ⟨hd, hp, hh, _⟩ := okTree_inner_zero hok (Or.inr (Or.inr rfl))
  exact ⟨by show (if "language" = "div" then 1 else 0) + _ = 0; rw [hd]; rfl,
    by show (if "language" = "pb" then 1 else 0) + _ = 0; rw [hp]; rfl,
    by show (if "language" = "head" then 1 else 0) + _ = 0; rw [hh]; rfl⟩

theorem filter_language_struct :
    ∀ (l : List XTree), okTreeList l = true →
      (countTagList "div" (l.filter (fun c => c.tag ≠ "language")) =
        countTagList "div" l ∧
       countTagList "pb" (l.filter (fun c => c.tag ≠ "language")) =
        countTagList "pb" l ∧
       countTagList "head" (l.filter (fun c => c.tag ≠ "language")) =
        countTagList "head" l ∧
       okTreeList (l.filter (fun c => c.tag ≠ "language")) = true) := by
  intro l
  induction l with
  | nil => intro _; exact ⟨rfl, rfl, rfl, rfl⟩
  | cons e r ih =>
    intro hok
    have hok' : okTree e = true ∧ okTreeList r = true :=
      Bool.and_eq_true_iff.mp hok
    obtain ⟨ld, lp, lh, lo⟩ := ih hok'.2
    by_cases ht : e.tag = "language"
    · rw [List.filter_cons_of_neg (by simp [ht])]
      obtain ⟨zd, zp, zh⟩ := countTag_language_zero e hok'.1 ht
      refine ⟨?_, ?_, ?_, lo⟩
      · show _ = countTag "div" e + countTagList "div" r
        rw [ld, zd]
        omega
      · show _ = countTag "pb" e + countTagList "pb" r
        rw [lp, zp]
        omega
      · show _ = countTag "head" e + countTagList "head" r
        rw [lh, zh]
        omega
    · rw [List.filter_cons_of_pos (by simp [ht])]
      refine ⟨?_, ?_, ?_, ?_⟩
      · show countTag "div" e + _ = countTag "div" e + countTagList "div" r
        rw [ld]
      · show countTag "pb" e + _ = countTag "pb" e + countTagList "pb" r
        rw [lp]
      · show countTag "head" e + _ = countTag "head" e + countTagList "head" r
        rw [lh]
      · show (okTree e && _) = true
        rw [hok'.1, lo]
        rfl

theorem langNode_struct (language : Str) :
    countTag "div" (langNode language) = 0 ∧
      countTag "pb" (langNode language) = 0 ∧
      countTag "head" (langNode language) = 0 ∧
      okTree (langNode language) = true :=
  ⟨rfl, rfl, rfl, rfl⟩

theorem addLangToLangUsage_struct (language : Str) :
    ∀ (lu : XTree), nodeOkPres lu (addLangToLangUsage language lu) := by
  intro lu hok
  obtain ⟨t, a, x, c, tl⟩ := lu
  have hkids := okTree_children hok
  obtain ⟨fd, fp, fh, fo⟩ := filter_language_struct c hkids
  obtain ⟨gd, gp, gh, go⟩ := langNode_struct language
  have hd : countTagList "div"
      ((c.filter (fun ch => ch.tag ≠ "language")) ++ [langNode language]) =
      countTagList "div" c := by
    rw [countTagList_append, fd]
    show _ + (countTag "div" (langNode language) + 0) = _
    rw [gd]
    omega
  have hp : countTagList "pb"
      ((c.filter (fun ch => ch.tag ≠ "language")) ++ [langNode language]) =
      countTagList "pb" c := by
    rw [countTagList_append, fp]
    show _ + (countTag "pb" (langNode language) + 0) = _
    rw [gp]
    omega
  have hh : countTagList "head"
      ((c.filter (fun ch => ch.tag ≠ "language")) ++ [langNode language]) =
      countTagList "head" c := by
    rw [countTagList_append, fh]
    show _ + (countTag "head" (langNode language) + 0) = _
    rw [gh]
    omega
  have ho : okTreeList
      ((c.filter (fun ch => ch.tag ≠ "language")) ++ [langNode language]) =
      true := by
    rw [okTreeList_append]
    refine ⟨fo, ?_⟩
    show (okTree (langNode language) && true) = true
    rw [go]
    rfl
  have hshape : addLangToLangUsage language (.node t a x c tl) =
      .node t a x ((c.filter (fun ch => ch.tag ≠ "language")) ++
        [langNode language]) tl := rfl
  rw [hshape]
  refine ⟨?_, ?_, ?_, okTree_congr hok hd hp hh ho⟩
  · show (if t = "div" then 1 else 0) + _ = _
    rw [hd]; rfl
  · show (if t = "pb" then 1 else 0) + _ = _
    rw [hp]; rfl
  · show (if t = "head" then 1 else 0) + _ = _
    rw [hh]; rfl

theorem append_clean_child_struct (t : String) (a : List (String × Str))
    (x : Str) (c : List XTree) (tl : Str) (new : XTree)
    (hd : countTag "div" new = 0) (hp : countTag "pb" new = 0)
    (hh : countTag "head" new = 0) (hvk : okTree new = true) :
    nodeOkPres (.node t a x c tl) (.node t a x (c ++ [new]) tl) := by
  intro hok
  have hkids := okTree_children hok
  have hdl : countTagList "div" (c ++ [new]) = countTagList "div" c := by
    rw [countTagList_append]
    show _ + (countTag "div" new + 0) = _
    rw [hd]
    omega
  have hpl : countTagList "pb" (c ++ [new]) = countTagList "pb" c := by
    rw [countTagList_append]
    show _ + (countTag "pb" new + 0) = _
    rw [hp]
    omega
  have hhl : countTagList "head" (c ++ [new]) = countTagList "head" c := by
    rw [countTagList_append]
    show _ + (countTag "head" new + 0) = _
    rw [hh]
    omega
  have hol : okTreeList (c ++ [new]) = true := by
    rw [okTreeList_append]
    refine ⟨hkids, ?_⟩
    show (okTree new && true) = true
    rw [hvk]
    rfl
  refine ⟨?_, ?_, ?_, okTree_congr hok hdl hpl hhl hol⟩
  · show (if t = "div" then 1 else 0) + _ = _
    rw [hdl]; rfl
  · show (if t = "pb" then 1 else 0) + _ = _
    rw [hpl]; rfl
  · show (if t = "head" then 1 else 0) + _ = _
    rw [hhl]; rfl

theorem rewriteHeaderLang_struct (root : XTree) (language : Str) (t1 : XTree)
    (hok : okTree root = true) (h : rewriteHeaderLang root language = some t1) :
    countTag "div" t1 = countTag "div" root ∧
      countTag "pb" t1 = countTag "pb" root ∧
      countTag "head" t1 = countTag "head" root ∧
      okTree t1 = true := by
  have hfPD : ∀ pd : XTree, nodeOkPres pd
      (let r2 := mapFirstDesc (fun e => e.tag = "langUsage")
        (addLangToLangUsage language) pd
       if r2.2 then r2.1
       else XTree.node pd.tag pd.attrs pd.text
        (pd.children ++ [.node "langUsage" [] [] [langNode language] []])
        pd.tail) := by
    intro pd hokpd
    by_cases hr2 : (mapFirstDesc (fun e => e.tag = "langUsage")
        (addLangToLangUsage language) pd).2 = true
    · simp only [hr2, if_true]
      exact mapFirstDesc_struct _ _
        (fun y _ => addLangToLangUsage_struct language y) pd hokpd
    · have hr2' : (mapFirstDesc (fun e => e.tag = "langUsage")
          (addLangToLangUsage language) pd).2 = false := by
        cases hx : (mapFirstDesc (fun e => e.tag = "langUsage")
            (addLangToLangUsage language) pd).2
        · rfl
        · cases hr2 hx
      simp only [hr2', Bool.false_eq_true, if_false]
      obtain ⟨t, a, x, c, tl⟩ := pd
      exact append_clean_child_struct t a x c tl
        (.node "langUsage" [] [] [langNode language] [])
        rfl rfl rfl rfl hokpd
  simp only [rewriteHeaderLang] at h
  by_cases h1 : (mapFirstDesc (fun e => e.tag = "profileDesc")
      (fun pd =>
        let r2 := mapFirstDesc (fun e => e.tag = "langUsage")
          (addLangToLangUsage language) pd
        if r2.2 then r2.1
        else XTree.node pd.tag pd.attrs pd.text
          (pd.children ++ [.node "langUsage" [] [] [langNode language] []])
          pd.tail) root).2 = true
  · rw [if_pos h1] at h
    cases h
    exact mapFirstDesc_struct _ _ (fun y _ => hfPD y) root hok
  · rw [if_neg h1] at h
    by_cases h2 : (mapFirstDesc (fun e => e.tag = "teiHeader")
        (fun th => XTree.node th.tag th.attrs th.text
          (th.children ++
            [.node "profileDesc" [] []
              [.node "langUsage" [] [] [langNode language] []] []])
          th.tail) root).2 = true
    · rw [if_pos h2] at h
      cases h
      refine mapFirstDesc_struct _ _ (fun y _ => ?_) root hok
      obtain ⟨t, a, x, c, tl⟩ := y
      exact append_clean_child_struct t a x c tl
        (.node "profileDesc" [] []
          [.node "langUsage" [] [] [langNode language] []] [])
        rfl rfl rfl rfl
    · rw [if_neg h2] at h
      cases h

theorem facsimile_append_counts (u : XTree) (hoku : okTree u = true) :
    countTag "div" (XTree.node u.tag u.attrs u.text
        (u.children ++ [.node "facsimile" [] [] [] []]) u.tail) =
      countTag "div" u ∧
    countTag "pb" (XTree.node u.tag u.attrs u.text
        (u.children ++ [.node "facsimile" [] [] [] []]) u.tail) =
      countTag "pb" u ∧
    countTag "head" (XTree.node u.tag u.attrs u.text
        (u.children ++ [.node "facsimile" [] [] [] []]) u.tail) =
      countTag "head" u := by
  obtain ⟨t4, a4, x4, c4, tl4⟩ := u
  obtain ⟨cd, cp, ch2, _⟩ := append_clean_child_struct t4 a4 x4 c4 tl4
    (.node "facsimile" [] [] [] []) rfl rfl rfl rfl hoku
  exact ⟨cd, cp, ch2⟩

/-- Structural counts through the whole of `_create_tei_with_ids`. -/
theorem createTeiWithIds_struct (doc : TEIDoc) (amap : EnhancedAlignmentMap)
    (lang : Str) (t : XTree) (hok : okTree doc.root = true)
    (h : createTeiWithIds doc amap lang = some t) :
    countTag "div" t = countTag "div" doc.root ∧
      countTag "pb" t = countTag "pb" doc.root ∧
      countTag "head" t = countTag "head" doc.root := by
  cases hh : rewriteHeaderLang doc.root lang with
  | none =>
    simp only [createTeiWithIds, hh] at h
    cases h
  | some t1 =>
    simp only [createTeiWithIds, hh] at h
    obtain ⟨hd1, hp1, hh1, ho1⟩ := rewriteHeaderLang_struct doc.root lang t1
      hok hh
    set emap := if lang ∈ langFam then amap.sourceElements
      else amap.targetElements with hemap
    obtain ⟨hd2, hp2, hh2, ho2⟩ := mapFirstDesc_struct
      (fun e => e.tag = "body") (transformElem emap)
      (fun y _ => transformElem_struct emap y) t1 ho1
    set t2 := (mapFirstDesc (fun e => e.tag = "body")
      (transformElem emap) t1).1 with ht2
    have step3 : ∀ t3 : XTree,
        (t3 = (mapFirstDesc (fun e => e.tag = "body")
            (transformFb amap) t2).1 ∨
          t3 = t2) →
        (countTag "div" t3 = countTag "div" t2 ∧
         countTag "pb" t3 = countTag "pb" t2 ∧
         countTag "head" t3 = countTag "head" t2 ∧
         okTree t3 = true) := by
      intro t3 h3
      rcases h3 with rfl | rfl
      · obtain ⟨a1, a2, a3, a4⟩ := mapFirstDesc_struct
          (fun e => e.tag = "body") (transformFb amap)
          (fun y _ => transformFb_struct amap y) t2 ho2
        exact ⟨a1, a2, a3, a4⟩
      · exact ⟨rfl, rfl, rfl, ho2⟩
    by_cases hem : emap = []
    · rw [if_pos hem] at h
      obtain ⟨b1, b2, b3, b4⟩ := step3 _ (Or.inl rfl)
      cases h
      obtain ⟨f1, f2, f3⟩ := facsimile_append_counts _ b4
      refine ⟨?_, ?_, ?_⟩
      · rw [f1, b1, hd2, hd1]
      · rw [f2, b2, hp2, hp1]
      · rw [f3, b3, hh2, hh1]
    · rw [if_neg hem] at h
      obtain ⟨b1, b2, b3, b4⟩ := step3 t2 (Or.inr rfl)
      cases h
      obtain ⟨f1, f2, f3⟩ := facsimile_append_counts _ b4
      refine ⟨?_, ?_, ?_⟩
      · rw [f1, b1, hd2, hd1]
      · rw [f2, b2, hp2, hp1]
      · rw [f3, b3, hh2, hh1]

/-- C5 counterexample: a page break nested inside a paragraph that gets
segmented is deleted by `elem.clear()`: the original holds one `pb`, the
projected document none. -/
theorem nested_pb_deleted :
    countTag "pb" srcDocPb.root = 1 ∧
      (createTeiWithIds srcDocPb amapPb (lit "it")).map (countTag "pb")
        = some 0 := by
  exact ⟨by decide, rfl⟩

/-- C5 amended: the counts of `div`, `pb` and `head` elements are preserved
by the projection provided no such element is nested inside a paragraph,
heading, or language declaration; a structural element nested inside a
paragraph that gets segmented (or inside a replaced language declaration) is
deleted. -/
theorem structural_counts_preserved (doc : TEIDoc)
    (amap : EnhancedAlignmentMap) (lang : Str) (t : XTree)
    (hok : okTree doc.root = true)
    (h : createTeiWithIds doc amap lang = some t) :
    countTag "div" t = countTag "div" doc.root ∧
      countTag "pb" t = countTag "pb" doc.root ∧
      countTag "head" t = countTag "head" doc.root :=
  createTeiWithIds_struct doc amap lang t hok h

/-- C5 witness: the fixture projection preserves all three counts. -/
theorem structural_counts_preserved_witness :
    countTag "div" projA = countTag "div" srcDocA.root ∧
      countTag "pb" projA = countTag "pb" srcDocA.root ∧
      countTag "head" projA = countTag "head" srcDocA.root :=
  structural_counts_preserved srcDocA amapAX (lit "it") projA (by decide) rfl
